import Mathlib

/-!
Verification of the indexing / retrieval subsystem of the `code-ai-agent`
repository: deterministic chunking, batched embedding with order/count
invariants, snapshot-replace vector-store semantics, and the lexical
fallback scanner.  Text is modelled as `List Char`; the store as a list of
rows; the database transaction, file system and embedding service as
explicit parameters (oracles) of the modelled operations.
-/

namespace CodeAgent

/-! ### JavaScript string primitives used by the source -/

/-- JavaScript whitespace (the characters `String.prototype.trim` strips). -/
def isJsWhitespace (c : Char) : Bool :=
  c = ' ' || c = '\t' || c = '\n' || c = '\r' ||
  c = '\x0b' || c = '\x0c' || c = ' ' || c = '﻿'

/-- `String.prototype.trim`: drop JS whitespace from both ends. -/
def jsTrim (l : List Char) : List Char :=
  ((l.dropWhile isJsWhitespace).reverse.dropWhile isJsWhitespace).reverse

/-- `content.replace(/\r\n/g, "\n")`: collapse every CRLF pair to LF,
scanning left to right. -/
def normalizeNewlines : List Char → List Char
  | '\r' :: '\n' :: rest => '\n' :: normalizeNewlines rest
  | c :: rest => c :: normalizeNewlines rest
  | [] => []

/-! ### Chunker (`chunkContent` in the indexing tool) -/

structure Chunk where
  text : List Char
  chunkIndex : Nat
deriving Repr, DecidableEq

/-- The `while (start < normalized.length)` loop of `chunkContent`:
slice a window of `size` characters at `start`, trim it, emit it with the
next dense index when non-empty, and advance `start` by `stride`. -/
def chunkLoop (normalized : List Char) (size stride : Nat) (hs : 0 < stride)
    (start idx : Nat) : List Chunk :=
  if start < normalized.length then
    let text := jsTrim ((normalized.drop start).take size)
    if text.length > 0 then
      ⟨text, idx⟩ :: chunkLoop normalized size stride hs (start + stride) (idx + 1)
    else
      chunkLoop normalized size stride hs (start + stride) idx
  else []
termination_by normalized.length - start
decreasing_by all_goals omega

/-- `chunkContent(content, chunkSize, chunkOverlap)` from the indexing tool:
normalize line endings, set `stride = max(1, chunkSize - chunkOverlap)`, and
run the sliding-window loop from position 0 with first index 0. -/
def chunkContent (content : List Char) (chunkSize chunkOverlap : Nat) : List Chunk :=
  let normalized := normalizeNewlines content
  let stride := max 1 (chunkSize - chunkOverlap)
  chunkLoop normalized chunkSize stride (Nat.lt_of_lt_of_le Nat.one_pos (le_max_left 1 _)) 0 0

/-! #### The spec's formulation of the chunking algorithm
"normalize line endings; `stride = size - overlap`; slide a window of
length `size` starting at 0, advancing by `stride`, until the window start
reaches the text length; trim each window; drop windows that trim to
empty; assign `index` sequentially over the surviving windows only." -/

/-- All windows of length `size`, taken at `start`, `start+stride`, …,
while the window start is below the text length. -/
def winsFrom (n : List Char) (size stride : Nat) (hs : 0 < stride) (start : Nat) :
    List (List Char) :=
  if start < n.length then
    (n.drop start).take size :: winsFrom n size stride hs (start + stride)
  else []
termination_by n.length - start
decreasing_by all_goals omega

/-- Assign indices `idx, idx+1, …` sequentially to a list of chunk texts. -/
def indexFrom (idx : Nat) : List (List Char) → List Chunk
  | [] => []
  | t :: rest => ⟨t, idx⟩ :: indexFrom (idx + 1) rest

/-- The Chunker algorithm exactly as the spec words it. -/
def chunkSpecAlg (content : List Char) (size overlap : Nat) (h : overlap < size) :
    List Chunk :=
  let n := normalizeNewlines content
  let wins := winsFrom n size (size - overlap) (by omega) 0
  indexFrom 0 ((wins.map jsTrim).filter fun t => decide (0 < t.length))

theorem jsTrim_sublist (l : List Char) : (jsTrim l).Sublist l := by
  unfold jsTrim
  have h1 : ((l.dropWhile isJsWhitespace).reverse.dropWhile isJsWhitespace).Sublist
      (l.dropWhile isJsWhitespace).reverse := List.dropWhile_sublist _
  have h2 : (((l.dropWhile isJsWhitespace).reverse.dropWhile
      isJsWhitespace).reverse).Sublist ((l.dropWhile isJsWhitespace).reverse.reverse) :=
    List.Sublist.reverse h1
  rw [List.reverse_reverse] at h2
  exact h2.trans (List.dropWhile_sublist _)

theorem jsTrim_length_le (l : List Char) : (jsTrim l).length ≤ l.length :=
  (jsTrim_sublist l).length_le

theorem jsTrim_eq_nil_of_all_ws (l : List Char) (h : ∀ c ∈ l, isJsWhitespace c) :
    jsTrim l = [] := by
  unfold jsTrim
  have : l.dropWhile isJsWhitespace = [] := List.dropWhile_eq_nil_iff.mpr h
  simp [this]

/-- The chunking loop emits exactly the trimmed, non-empty windows, indexed
sequentially from `idx`. -/
theorem chunkLoop_eq_spec (n : List Char) (size stride : Nat) (hs : 0 < stride) :
    ∀ m start idx, n.length - start ≤ m →
      chunkLoop n size stride hs start idx =
        indexFrom idx
          (((winsFrom n size stride hs start).map jsTrim).filter
            fun t => decide (0 < t.length)) := by
  intro m
  induction m with
  | zero =>
    intro start idx hm
    rw [chunkLoop, winsFrom]
    have : ¬ start < n.length := by omega
    simp [this, indexFrom]
  | succ m ih =>
    intro start idx hm
    rw [chunkLoop, winsFrom]
    by_cases hlt : start < n.length
    · have hrec : n.length - (start + stride) ≤ m := by omega
      simp only [if_pos hlt]
      by_cases hne : 0 < (jsTrim ((n.drop start).take size)).length
      · simp [hne, List.filter_cons, indexFrom, ih (start + stride) (idx + 1) hrec]
      · simp [hne, List.filter_cons, ih (start + stride) idx hrec]
    · simp [hlt, indexFrom]

theorem mem_winsFrom_of_mem (n : List Char) (size stride : Nat) (hs : 0 < stride) :
    ∀ m start w, n.length - start ≤ m → w ∈ winsFrom n size stride hs start →
      ∃ s, w = (n.drop s).take size := by
  intro m
  induction m with
  | zero =>
    intro start w hm hw
    rw [winsFrom] at hw
    have : ¬ start < n.length := by omega
    simp [this] at hw
  | succ m ih =>
    intro start w hm hw
    rw [winsFrom] at hw
    by_cases hlt : start < n.length
    · simp only [hlt, if_true, List.mem_cons] at hw
      rcases hw with h | h
      · exact ⟨start, h⟩
      · exact ih (start + stride) w (by omega) h
    · simp [hlt] at hw

theorem mem_indexFrom (idx : Nat) (l : List (List Char)) (c : Chunk)
    (h : c ∈ indexFrom idx l) : c.text ∈ l := by
  induction l generalizing idx with
  | nil => simp [indexFrom] at h
  | cons t rest ih =>
    simp only [indexFrom, List.mem_cons] at h
    rcases h with h | h
    · subst h; exact List.mem_cons_self _ _
    · exact List.mem_cons_of_mem _ (ih _ h)

theorem indexFrom_indices (idx : Nat) (l : List (List Char)) :
    (indexFrom idx l).map Chunk.chunkIndex = List.range' idx l.length := by
  induction l generalizing idx with
  | nil => simp [indexFrom]
  | cons t rest ih => simp [indexFrom, List.range', ih]

theorem normalizeNewlines_length_le (l : List Char) :
    (normalizeNewlines l).length ≤ l.length := by
  induction l using normalizeNewlines.induct with
  | case1 rest ih => simpa [normalizeNewlines] using Nat.le_succ_of_le ih
  | case2 c rest hne ih => simpa [normalizeNewlines, hne] using ih
  | case3 => simp [normalizeNewlines]

theorem mem_normalizeNewlines (l : List Char) (c : Char)
    (h : c ∈ normalizeNewlines l) : c ∈ l ∨ c = '\n' := by
  induction l using normalizeNewlines.induct with
  | case1 rest ih =>
    simp only [normalizeNewlines, List.mem_cons] at h
    rcases h with h | h
    · right; exact h
    · rcases ih h with h' | h'
      · left; simp [h']
      · right; exact h'
  | case2 d rest hne ih =>
    simp only [normalizeNewlines, List.mem_cons] at h
    rcases h with h | h
    · left; simp [h]
    · rcases ih h with h' | h'
      · left; simp [h']
      · right; exact h'
  | case3 => simp [normalizeNewlines] at h

theorem indexFrom_length (idx : Nat) (l : List (List Char)) :
    (indexFrom idx l).length = l.length := by
  induction l generalizing idx with
  | nil => simp [indexFrom]
  | cons t rest ih => simp [indexFrom, ih]

theorem chunkLoop_proof_irrel (n : List Char) (size s1 s2 : Nat) (h1 : 0 < s1)
    (h2 : 0 < s2) (hss : s1 = s2) (start idx : Nat) :
    chunkLoop n size s1 h1 start idx = chunkLoop n size s2 h2 start idx := by
  subst hss; rfl

theorem chunkContent_eq_specAlg (text : List Char) (size overlap : Nat)
    (h : overlap < size) :
    chunkContent text size overlap = chunkSpecAlg text size overlap h := by
  unfold chunkContent chunkSpecAlg
  simp only []
  rw [chunkLoop_proof_irrel (normalizeNewlines text) size (max 1 (size - overlap))
    (size - overlap) _ (by omega) (by omega) 0 0]
  exact chunkLoop_eq_spec (normalizeNewlines text) size (size - overlap) (by omega)
    (normalizeNewlines text).length 0 0 (by omega)

/-- C4: with `overlap < size`, `chunkContent` emits chunks of at most `size`
characters, equals the spec's algorithm (normalize line endings, slide a
window of length `size` from 0 by `stride = size - overlap` until the window
start reaches the text length, trim each window, drop empty trims, index the
survivors sequentially), and is deterministic in its inputs. -/
theorem chunkContent_matches_spec (text : List Char) (size overlap : Nat)
    (h : overlap < size) :
    (∀ c ∈ chunkContent text size overlap, c.text.length ≤ size) ∧
    chunkContent text size overlap = chunkSpecAlg text size overlap h ∧
    (∀ t' s' o', t' = text → s' = size → o' = overlap →
      chunkContent t' s' o' = chunkContent text size overlap) := by
  refine ⟨?_, chunkContent_eq_specAlg text size overlap h, ?_⟩
  · intro c hc
    rw [chunkContent_eq_specAlg text size overlap h] at hc
    unfold chunkSpecAlg at hc
    simp only [] at hc
    have htext := mem_indexFrom _ _ _ hc
    have hmem := List.mem_of_mem_filter htext
    rcases List.mem_map.mp hmem with ⟨w, hw, hweq⟩
    rcases mem_winsFrom_of_mem (normalizeNewlines text) size (size - overlap)
      (by omega) (normalizeNewlines text).length 0 w (by omega) hw with ⟨s, hs⟩
    subst hs
    have h1 : c.text.length ≤ (((normalizeNewlines text).drop s).take size).length := by
      rw [← hweq]; exact jsTrim_length_le _
    have h2 : (((normalizeNewlines text).drop s).take size).length ≤ size := by
      simp [List.length_take]
    omega
  · intro t' s' o' ht hs ho
    subst ht; subst hs; subst ho; rfl

/-- Witness for C4 at a concrete input. -/
theorem chunkContent_matches_spec_witness :
    1 < 4 ∧
    chunkContent ['h', 'i', ' ', 't', 'o', 'p'] 4 1 =
      chunkSpecAlg ['h', 'i', ' ', 't', 'o', 'p'] 4 1 (by norm_num) :=
  ⟨by norm_num,
    (chunkContent_matches_spec ['h', 'i', ' ', 't', 'o', 'p'] 4 1 (by norm_num)).2.1⟩

/-- C5 counterexample: the text `"ab"` is shorter than `size = 200` and
non-empty after trimming, and `overlap = 199 < size`, yet `chunkContent`
yields two chunks, not exactly one (the stride is 1, so a second window
starts inside the text). -/
theorem chunkContent_short_text_counterexample :
    (['a', 'b'] : List Char).length < 200 ∧ (199 : Nat) < 200 ∧
    0 < (jsTrim ['a', 'b']).length ∧
    chunkContent ['a', 'b'] 200 199 = [⟨['a', 'b'], 0⟩, ⟨['b'], 1⟩] := by
  refine ⟨by norm_num, by norm_num, by decide, ?_⟩
  simp [chunkContent, chunkLoop, jsTrim, normalizeNewlines, isJsWhitespace]

/-- C5 (amended): with `overlap < size`, a text no longer than the stride
`size - overlap` (hence shorter than `size`) yields exactly one chunk when
non-empty after trimming; an all-whitespace text yields zero chunks; and the
`chunkIndex` values are dense `0..n-1` over the emitted chunks. -/
theorem chunkContent_edge_cases (text : List Char) (size overlap : Nat)
    (h : overlap < size) :
    (0 < (jsTrim (normalizeNewlines text)).length → text.length ≤ size →
      text.length ≤ size - overlap →
      chunkContent text size overlap = [⟨jsTrim (normalizeNewlines text), 0⟩]) ∧
    ((∀ c ∈ text, isJsWhitespace c) → chunkContent text size overlap = []) ∧
    (chunkContent text size overlap).map Chunk.chunkIndex =
      List.range (chunkContent text size overlap).length := by
  have hnorm : (normalizeNewlines text).length ≤ text.length :=
    normalizeNewlines_length_le text
  refine ⟨?_, ?_, ?_⟩
  · intro hne hsize hstride
    have hpos : 0 < (normalizeNewlines text).length := by
      by_contra hz
      have : normalizeNewlines text = [] := List.eq_nil_of_length_eq_zero (by omega)
      rw [this] at hne
      simp [jsTrim] at hne
    unfold chunkContent
    simp only []
    rw [chunkLoop]
    have hlt : 0 < (normalizeNewlines text).length := hpos
    rw [if_pos hlt]
    have hwin : ((normalizeNewlines text).drop 0).take size = normalizeNewlines text := by
      rw [List.drop_zero]
      exact List.take_of_length_le (by omega)
    rw [hwin, if_pos hne]
    rw [chunkLoop]
    have : ¬ 0 + max 1 (size - overlap) < (normalizeNewlines text).length := by
      have : max 1 (size - overlap) = size - overlap := by omega
      omega
    rw [if_neg this]
  · intro hws
    rw [chunkContent_eq_specAlg text size overlap h]
    unfold chunkSpecAlg
    simp only []
    have hfilter :
        ((winsFrom (normalizeNewlines text) size (size - overlap) (by omega) 0).map
          jsTrim).filter (fun t => decide (0 < t.length)) = [] := by
      rw [List.filter_eq_nil_iff]
      intro t ht
      rcases List.mem_map.mp ht with ⟨w, hw, hweq⟩
      rcases mem_winsFrom_of_mem (normalizeNewlines text) size (size - overlap)
        (by omega) (normalizeNewlines text).length 0 w (by omega) hw with ⟨s, hs⟩
      have hwws : ∀ c ∈ w, isJsWhitespace c := by
        intro c hcw
        have hcn : c ∈ normalizeNewlines text := by
          subst hs
          exact List.mem_of_mem_drop (List.mem_of_mem_take hcw)
        rcases mem_normalizeNewlines text c hcn with hc | hc
        · exact hws c hc
        · subst hc; decide
      rw [← hweq, jsTrim_eq_nil_of_all_ws w hwws]
      simp
    rw [hfilter]
    rfl
  · rw [chunkContent_eq_specAlg text size overlap h]
    unfold chunkSpecAlg
    simp only []
    rw [indexFrom_indices, indexFrom_length, List.range_eq_range']

/-- Witness for C5 (amended) at concrete inputs. -/
theorem chunkContent_edge_cases_witness :
    chunkContent ['h', 'i'] 3 1 = [⟨['h', 'i'], 0⟩] ∧
    chunkContent [' ', '\t'] 3 1 = [] :=
  ⟨(chunkContent_edge_cases ['h', 'i'] 3 1 (by norm_num)).1 (by decide) (by decide)
      (by decide),
    (chunkContent_edge_cases [' ', '\t'] 3 1 (by norm_num)).2.1 (by decide)⟩

/-! ### Lexical scanner: tokenizer (`tokenize` in `tools/utils.ts`),
scorer and snippet extractor (the semantic-search tool). -/

theorem char_toNat_ofNat (n : Nat) (h : n < 0xd800) : (Char.ofNat n).toNat = n := by
  rw [Char.ofNat, dif_pos (Or.inl h)]
  simp [Char.toNat, Char.ofNatAux, UInt32.toNat, UInt32.ofNat', BitVec.toNat_ofNatLt]

/-- The character class `[a-z0-9]` of the tokenizer's split regex, with its
case-insensitive flag. -/
def isAlnumCI (c : Char) : Bool :=
  ('a' ≤ c && c ≤ 'z') || ('0' ≤ c && c ≤ '9') || ('A' ≤ c && c ≤ 'Z')

/-- `String.prototype.toLowerCase` on the ASCII range. -/
def jsToLower (c : Char) : Char :=
  if 'A' ≤ c && c ≤ 'Z' then Char.ofNat (c.toNat + 32) else c

def lowerStr (l : List Char) : List Char := l.map jsToLower

mutual

/-- `split(/[^a-z0-9]+/i)`, while inside an alphanumeric run: `acc` holds the
reversed current piece. -/
def splitRunGo : List Char → List Char → List (List Char)
  | [], acc => [acc.reverse]
  | c :: rest, acc =>
    if isAlnumCI c then splitRunGo rest (c :: acc)
    else acc.reverse :: splitRunSkip rest

/-- `split(/[^a-z0-9]+/i)`, while consuming a separator run. -/
def splitRunSkip : List Char → List (List Char)
  | [] => [[]]
  | c :: rest => if isAlnumCI c then splitRunGo rest [c] else splitRunSkip rest

end

def jsSplitNonAlnum (l : List Char) : List (List Char) := splitRunGo l []

/-- `tokenize(text)` from `tools/utils.ts`: lower-case, split on runs of
non-alphanumeric characters, keep only tokens of length `> 1`. -/
def tokenize (text : List Char) : List (List Char) :=
  (jsSplitNonAlnum (lowerStr text)).filter fun t => decide (1 < t.length)

def dedupGo (seen : List (List Char)) : List (List Char) → List (List Char)
  | [] => []
  | t :: rest => if t ∈ seen then dedupGo seen rest else t :: dedupGo (t :: seen) rest

/-- `Array.from(new Set(l))`: deduplicate keeping first occurrences in order. -/
def jsDedup (l : List (List Char)) : List (List Char) := dedupGo [] l

/-- The scanning loop of `occurrencesOf`: find the next match, count it, and
continue after it (JS `indexOf` / advance-by-`needle.length`). -/
def occCount (needle : List Char) (hne : needle ≠ []) : List Char → Nat
  | [] => 0
  | c :: rest =>
    if needle.isPrefixOf (c :: rest) then
      1 + occCount needle hne ((c :: rest).drop needle.length)
    else occCount needle hne rest
termination_by l => l.length
decreasing_by
  · have : 0 < needle.length := List.length_pos.mpr hne
    simp [List.length_drop]
    omega
  · simp

/-- `occurrencesOf(haystack, needle)` from the search tool: 0 for an empty
needle, else the number of non-overlapping left-to-right occurrences. -/
def occurrencesOf (haystack needle : List Char) : Nat :=
  if h : needle = [] then 0 else occCount needle h haystack

/-- `haystack.includes(needle)`: `needle` occurs contiguously in `haystack`. -/
def jsIncludes (haystack needle : List Char) : Bool := decide (needle <:+: haystack)

def idxGo (needle : List Char) : List Char → Option Nat
  | [] => if needle = [] then some 0 else none
  | c :: rest =>
    if needle.isPrefixOf (c :: rest) then some 0
    else (idxGo needle rest).map (· + 1)

/-- `haystack.indexOf(needle)`: first match position, or `-1`. -/
def jsIndexOf (haystack needle : List Char) : Int :=
  match idxGo needle haystack with
  | some i => (i : Int)
  | none => -1

/-- One token's contribution to a file's score:
`occurrences × (token.length + 1)` when the token occurs at all. -/
def tokenScore (lowerContent tok : List Char) : Nat :=
  let occurrences := occurrencesOf lowerContent tok
  if 0 < occurrences then occurrences * (tok.length + 1) else 0

/-- The per-file score of the search tool's scan loop: a verbatim-phrase
bonus of `3 × queryLower.length`, plus each token's occurrence score. -/
def fileScore (queryLower : List Char) (tokens : List (List Char))
    (lowerContent : List Char) : Nat :=
  (if jsIncludes lowerContent queryLower then queryLower.length * 3 else 0) +
    (tokens.map (tokenScore lowerContent)).sum

/-- The anchor picked by the token loop when the phrase did not match:
the first token (in order) with a positive occurrence count. -/
def tokenAnchor (lowerContent : List Char) : List (List Char) → Int × List Char
  | [] => (-1, [])
  | tok :: rest =>
    if 0 < occurrencesOf lowerContent tok then (jsIndexOf lowerContent tok, tok)
    else tokenAnchor lowerContent rest

/-- `bestIndex`/`bestTerm` of the scan loop: the verbatim phrase's first
occurrence if the phrase matches, else the first matching token's. -/
def anchorOf (queryLower : List Char) (tokens : List (List Char))
    (lowerContent : List Char) : Int × List Char :=
  if jsIncludes lowerContent queryLower then
    (jsIndexOf lowerContent queryLower, queryLower)
  else tokenAnchor lowerContent tokens

/-- Number of `/\r?\n/` separators: every LF ends one line break, a CR
immediately before an LF belongs to it. -/
def countLineBreaks : List Char → Nat
  | '\r' :: '\n' :: rest => 1 + countLineBreaks rest
  | '\n' :: rest => 1 + countLineBreaks rest
  | _ :: rest => countLineBreaks rest
  | [] => 0

/-- The `buildSnippet` fallback scan: first token present in the content. -/
def fallbackAnchor (lowerContent : List Char) : List (List Char) → Int
  | [] => -1
  | tok :: rest =>
    let candidateIndex := jsIndexOf lowerContent tok
    if candidateIndex ≠ -1 then candidateIndex else fallbackAnchor lowerContent rest

structure Snippet where
  text : List Char
  lineNumber : Nat
  truncated : Bool
deriving Repr, DecidableEq

/-- `buildSnippet(originalContent, lowerContent, index, term, maxLength,
tokens)` from the search tool (the unused `term` bookkeeping is dropped):
re-anchor via the fallback scan when `index = -1`; with no anchor, preview
the file head; otherwise slice the window `[max(0, i - ⌊maxLength/2⌋), start
+ maxLength)` clipped to the content and count the lines before the anchor. -/
def buildSnippet (originalContent lowerContent : List Char) (index : Int)
    (maxLength : Nat) (tokens : List (List Char)) : Snippet :=
  let targetIndex := if index = -1 then fallbackAnchor lowerContent tokens else index
  if targetIndex = -1 then
    let preview := originalContent.take maxLength
    ⟨preview, 1, decide (preview.length < originalContent.length)⟩
  else
    let ti := targetIndex.toNat
    let half := maxLength / 2
    let start := ti - half
    let stop := min originalContent.length (start + maxLength)
    ⟨(originalContent.drop start).take (stop - start),
      countLineBreaks (originalContent.take ti) + 1,
      decide (stop < originalContent.length)⟩

/-- A candidate file as the walker + `readTextFile` deliver it: its
workspace-relative path, decoded content, and read-truncation flag. -/
structure LexFile where
  path : String
  content : List Char
  truncated : Bool

structure Finding where
  file : String
  score : Nat
  snippet : List Char
  line : Nat
  truncated : Bool

structure SearchOutput where
  results : List Finding
  searchedFiles : Nat
  hasMore : Bool

/-- `findings.sort((a, b) => b.score - a.score)`: stable, descending score. -/
def sortByScoreDesc (findings : List Finding) : List Finding :=
  findings.mergeSort fun a b => b.score ≤ a.score

/-- The search tool's `execute`: tokenize and deduplicate the query, reject
it if no tokens survive, otherwise score every candidate file, keep scores
`> 0` with their snippets, sort descending and truncate to `maxResults`. -/
def searchSemanticModel (query : List Char) (files : List LexFile)
    (maxResults maxSnippetLength : Nat) : Except String SearchOutput :=
  let tokens := jsDedup (tokenize query)
  if tokens = [] then .error "Provide a more descriptive query."
  else
    let queryLower := lowerStr query
    let findings := files.filterMap fun f =>
      let lowerContent := lowerStr f.content
      let score := fileScore queryLower tokens lowerContent
      if score = 0 then none
      else
        let anchor := anchorOf queryLower tokens lowerContent
        let sn := buildSnippet f.content lowerContent anchor.1 maxSnippetLength tokens
        some ⟨f.path, score, sn.text, sn.lineNumber, f.truncated || sn.truncated⟩
    let sorted := sortByScoreDesc findings
    .ok ⟨sorted.take maxResults, files.length, decide (maxResults < findings.length)⟩

/-! #### C10: trivial queries are rejected before any file access -/

/-- Two adjacent alphanumeric characters somewhere in the text — the
negation of "every maximal alphanumeric run has length ≤ 1". -/
def hasAdjacentAlnum : List Char → Bool
  | [] => false
  | [_] => false
  | a :: b :: rest => (isAlnumCI a && isAlnumCI b) || hasAdjacentAlnum (b :: rest)

theorem isAlnumCI_jsToLower (c : Char) : isAlnumCI (jsToLower c) = isAlnumCI c := by
  unfold jsToLower
  by_cases h : ('A' ≤ c && c ≤ 'Z') = true
  · simp only [h, if_true]
    have h1 : 65 ≤ c.toNat ∧ c.toNat ≤ 90 := by
      simp only [Bool.and_eq_true, decide_eq_true_eq] at h
      exact ⟨h.1, h.2⟩
    have h2 : (Char.ofNat (c.toNat + 32)).toNat = c.toNat + 32 :=
      char_toNat_ofNat _ (by omega)
    have ha : 'a'.toNat = 97 := rfl
    have hz : 'z'.toNat = 122 := rfl
    have hles : ('a' ≤ Char.ofNat (c.toNat + 32) && Char.ofNat (c.toNat + 32) ≤ 'z') = true := by
      simp only [Bool.and_eq_true, decide_eq_true_eq]
      constructor
      · show 'a'.toNat ≤ (Char.ofNat (c.toNat + 32)).toNat
        rw [h2, ha]; omega
      · show (Char.ofNat (c.toNat + 32)).toNat ≤ 'z'.toNat
        rw [h2, hz]; omega
    unfold isAlnumCI
    rw [hles]
    simp [h]
  · simp [h]

theorem jsToLower_idem (c : Char) : jsToLower (jsToLower c) = jsToLower c := by
  unfold jsToLower
  by_cases h : ('A' ≤ c && c ≤ 'Z') = true
  · simp only [h, if_true]
    have h1 : 65 ≤ c.toNat ∧ c.toNat ≤ 90 := by
      simp only [Bool.and_eq_true, decide_eq_true_eq] at h
      exact ⟨h.1, h.2⟩
    have h2 : (Char.ofNat (c.toNat + 32)).toNat = c.toNat + 32 :=
      char_toNat_ofNat _ (by omega)
    have hno : ('A' ≤ Char.ofNat (c.toNat + 32) && Char.ofNat (c.toNat + 32) ≤ 'Z') = false := by
      simp only [Bool.and_eq_false_iff]
      right
      simp only [decide_eq_false_iff_not]
      intro hc
      have h3 : (Char.ofNat (c.toNat + 32)).toNat ≤ 'Z'.toNat := hc
      have hZ : 'Z'.toNat = 90 := rfl
      rw [h2, hZ] at h3
      omega
    rw [hno]
    simp
  · simp [h]

theorem hasAdjacentAlnum_lowerStr (q : List Char) :
    hasAdjacentAlnum (lowerStr q) = hasAdjacentAlnum q := by
  induction q using hasAdjacentAlnum.induct with
  | case1 => rfl
  | case2 a => rfl
  | case3 a b rest ih =>
    show hasAdjacentAlnum (jsToLower a :: jsToLower b :: lowerStr rest) = _
    unfold hasAdjacentAlnum
    rw [isAlnumCI_jsToLower, isAlnumCI_jsToLower]
    have : jsToLower b :: lowerStr rest = lowerStr (b :: rest) := rfl
    rw [this, ih]

theorem splitRunGo_head (l : List Char) :
    ∀ acc, (acc.reverse ++ l.takeWhile isAlnumCI) ∈ splitRunGo l acc := by
  induction l with
  | nil => intro acc; simp [splitRunGo]
  | cons c rest ih =>
    intro acc
    rw [splitRunGo]
    by_cases hc : isAlnumCI c = true
    · rw [if_pos hc, List.takeWhile_cons, if_pos hc]
      have := ih (c :: acc)
      simpa using this
    · rw [if_neg hc, List.takeWhile_cons, if_neg hc]
      simp

/-- If the text has no two adjacent alphanumeric characters, every piece of
the split is at most one character long. -/
theorem split_pieces_short : ∀ n (l : List Char), l.length ≤ n →
    hasAdjacentAlnum l = false →
    ((∀ acc, acc.length ≤ 1 →
        (∀ c rest, l = c :: rest → isAlnumCI c = true → acc = []) →
        ∀ p ∈ splitRunGo l acc, p.length ≤ 1) ∧
      (∀ p ∈ splitRunSkip l, p.length ≤ 1)) := by
  intro n
  induction n with
  | zero =>
    intro l hl _
    have : l = [] := List.eq_nil_of_length_eq_zero (by omega)
    subst this
    constructor
    · intro acc hacc _ p hp
      rw [splitRunGo] at hp
      simp at hp
      simpa [hp] using hacc
    · intro p hp
      rw [splitRunSkip] at hp
      simp at hp
      simp [hp]
  | succ n ih =>
    intro l hl hadj
    match l with
    | [] =>
      constructor
      · intro acc hacc _ p hp
        rw [splitRunGo] at hp
        simp at hp
        simpa [hp] using hacc
      · intro p hp
        rw [splitRunSkip] at hp
        simp at hp
        simp [hp]
    | c :: rest =>
      have hrest_adj : hasAdjacentAlnum rest = false := by
        match rest with
        | [] => rfl
        | b :: r2 =>
          unfold hasAdjacentAlnum at hadj
          exact (Bool.or_eq_false_iff.mp hadj).2
      have hnopair : ∀ b r2, rest = b :: r2 → isAlnumCI c = true →
          isAlnumCI b = true → False := by
        intro b r2 hr hc hb
        subst hr
        unfold hasAdjacentAlnum at hadj
        rw [hc, hb] at hadj
        simp at hadj
      constructor
      · intro acc hacc hhead p hp
        rw [splitRunGo] at hp
        by_cases hc : isAlnumCI c = true
        · rw [if_pos hc] at hp
          have hacc0 : acc = [] := hhead c rest rfl hc
          subst hacc0
          have hlen : rest.length ≤ n := by
            simp only [List.length_cons] at hl
            omega
          refine (ih rest hlen hrest_adj).1 [c] (by simp) ?_ p hp
          intro b r2 hr hb
          exact absurd (hnopair b r2 hr hc hb) (by simp)
        · rw [if_neg hc] at hp
          have hlen : rest.length ≤ n := by
            simp only [List.length_cons] at hl
            omega
          rcases List.mem_cons.mp hp with h | h
          · simpa [h] using hacc
          · exact (ih rest hlen hrest_adj).2 p h
      · intro p hp
        rw [splitRunSkip] at hp
        have hlen : rest.length ≤ n := by
          simp only [List.length_cons] at hl
          omega
        by_cases hc : isAlnumCI c = true
        · rw [if_pos hc] at hp
          refine (ih rest hlen hrest_adj).1 [c] (by simp) ?_ p hp
          intro b r2 hr hb
          exact absurd (hnopair b r2 hr hc hb) (by simp)
        · rw [if_neg hc] at hp
          exact (ih rest hlen hrest_adj).2 p hp

/-- If the text has two adjacent alphanumeric characters, some piece of the
split is at least two characters long. -/
theorem split_pieces_long : ∀ n (l : List Char), l.length ≤ n →
    hasAdjacentAlnum l = true →
    ((∀ acc, ∃ p ∈ splitRunGo l acc, 2 ≤ p.length) ∧
      (∃ p ∈ splitRunSkip l, 2 ≤ p.length)) := by
  intro n
  induction n with
  | zero =>
    intro l hl hadj
    have : l = [] := List.eq_nil_of_length_eq_zero (by omega)
    subst this
    simp [hasAdjacentAlnum] at hadj
  | succ n ih =>
    intro l hl hadj
    match l with
    | [] => simp [hasAdjacentAlnum] at hadj
    | [a] => simp [hasAdjacentAlnum] at hadj
    | a :: b :: rest =>
      unfold hasAdjacentAlnum at hadj
      rcases Bool.or_eq_true_iff.mp hadj with hpair | htail
      · simp only [Bool.and_eq_true] at hpair
        have ha : isAlnumCI a = true := hpair.1
        have hb : isAlnumCI b = true := hpair.2
        have htake : 1 ≤ ((b :: rest).takeWhile isAlnumCI).length := by
          rw [List.takeWhile_cons, if_pos hb]
          simp
        constructor
        · intro acc
          rw [splitRunGo, if_pos ha]
          refine ⟨(a :: acc).reverse ++ (b :: rest).takeWhile isAlnumCI,
            splitRunGo_head _ _, ?_⟩
          simp only [List.length_append, List.length_reverse, List.length_cons]
          omega
        · rw [splitRunSkip, if_pos ha]
          refine ⟨[a].reverse ++ (b :: rest).takeWhile isAlnumCI,
            splitRunGo_head _ _, ?_⟩
          simp only [List.length_append, List.length_reverse, List.length_cons,
            List.length_nil]
          omega
      · have hlen : (b :: rest).length ≤ n := by
          simp only [List.length_cons] at hl ⊢
          omega
        constructor
        · intro acc
          rw [splitRunGo]
          by_cases ha : isAlnumCI a = true
          · rw [if_pos ha]
            exact (ih (b :: rest) hlen htail).1 (a :: acc)
          · rw [if_neg ha]
            rcases (ih (b :: rest) hlen htail).2 with ⟨p, hp, h2⟩
            exact ⟨p, List.mem_cons_of_mem _ hp, h2⟩
        · rw [splitRunSkip]
          by_cases ha : isAlnumCI a = true
          · rw [if_pos ha]
            exact (ih (b :: rest) hlen htail).1 [a]
          · rw [if_neg ha]
            exact (ih (b :: rest) hlen htail).2

/-- The tokenization of a query is empty exactly when the query has no two
adjacent alphanumeric characters, i.e. every maximal alphanumeric run has
length ≤ 1. -/
theorem tokenize_eq_nil_iff (q : List Char) :
    tokenize q = [] ↔ hasAdjacentAlnum q = false := by
  unfold tokenize jsSplitNonAlnum
  rw [List.filter_eq_nil_iff]
  constructor
  · intro h
    by_contra habs
    have hadj : hasAdjacentAlnum (lowerStr q) = true := by
      rw [hasAdjacentAlnum_lowerStr]
      exact Bool.not_eq_false _ |>.mp habs
    rcases (split_pieces_long (lowerStr q).length (lowerStr q) le_rfl hadj).1 []
      with ⟨p, hp, h2⟩
    have := h p hp
    simp at this
    omega
  · intro h p hp
    have h' : hasAdjacentAlnum (lowerStr q) = false := by
      rw [hasAdjacentAlnum_lowerStr]; exact h
    have := (split_pieces_short (lowerStr q).length (lowerStr q) le_rfl h').1 []
      (by simp) (by intro c rest _ _; rfl) p hp
    simp
    omega

theorem jsDedup_eq_nil_iff (l : List (List Char)) : jsDedup l = [] ↔ l = [] := by
  cases l with
  | nil => simp [jsDedup, dedupGo]
  | cons t rest =>
    simp [jsDedup, dedupGo]

theorem mem_dedupGo (seen l : List (List Char)) (x : List Char)
    (h : x ∈ dedupGo seen l) : x ∈ l := by
  induction l generalizing seen with
  | nil => simp [dedupGo] at h
  | cons t rest ih =>
    rw [dedupGo] at h
    by_cases ht : t ∈ seen
    · rw [if_pos ht] at h
      exact List.mem_cons_of_mem _ (ih _ h)
    · rw [if_neg ht] at h
      rcases List.mem_cons.mp h with h | h
      · simp [h]
      · exact List.mem_cons_of_mem _ (ih _ h)

theorem dedupGo_not_mem_seen (seen l : List (List Char)) (x : List Char)
    (h : x ∈ dedupGo seen l) : x ∉ seen := by
  induction l generalizing seen with
  | nil => simp [dedupGo] at h
  | cons t rest ih =>
    rw [dedupGo] at h
    by_cases ht : t ∈ seen
    · rw [if_pos ht] at h
      exact ih _ h
    · rw [if_neg ht] at h
      rcases List.mem_cons.mp h with h | h
      · subst h; exact ht
      · intro hx
        exact ih _ h (List.mem_cons_of_mem _ hx)

theorem dedupGo_nodup (seen l : List (List Char)) : (dedupGo seen l).Nodup := by
  induction l generalizing seen with
  | nil => simp [dedupGo]
  | cons t rest ih =>
    rw [dedupGo]
    by_cases ht : t ∈ seen
    · rw [if_pos ht]; exact ih _
    · rw [if_neg ht]
      refine List.nodup_cons.mpr ⟨?_, ih _⟩
      intro habs
      exact dedupGo_not_mem_seen _ _ _ habs (List.mem_cons_self _ _)

theorem splitRun_chars : ∀ n (l : List Char), l.length ≤ n →
    ((∀ acc p, p ∈ splitRunGo l acc → ∀ c ∈ p, c ∈ l ∨ c ∈ acc) ∧
      (∀ p, p ∈ splitRunSkip l → ∀ c ∈ p, c ∈ l)) := by
  intro n
  induction n with
  | zero =>
    intro l hl
    have : l = [] := List.eq_nil_of_length_eq_zero (by omega)
    subst this
    constructor
    · intro acc p hp c hc
      rw [splitRunGo] at hp
      simp at hp
      subst hp
      right
      simpa using hc
    · intro p hp c hc
      rw [splitRunSkip] at hp
      simp at hp
      subst hp
      simp at hc
  | succ n ih =>
    intro l hl
    match l with
    | [] =>
      constructor
      · intro acc p hp c hc
        rw [splitRunGo] at hp
        simp at hp
        subst hp
        right
        simpa using hc
      · intro p hp c hc
        rw [splitRunSkip] at hp
        simp at hp
        subst hp
        simp at hc
    | d :: rest =>
      have hlen : rest.length ≤ n := by
        simp only [List.length_cons] at hl
        omega
      constructor
      · intro acc p hp c hc
        rw [splitRunGo] at hp
        by_cases hd : isAlnumCI d = true
        · rw [if_pos hd] at hp
          rcases (ih rest hlen).1 (d :: acc) p hp c hc with h | h
          · left; exact List.mem_cons_of_mem _ h
          · rcases List.mem_cons.mp h with h | h
            · left; simp [h]
            · right; exact h
        · rw [if_neg hd] at hp
          rcases List.mem_cons.mp hp with h | h
          · subst h
            right
            simpa using hc
          · left
            exact List.mem_cons_of_mem _ ((ih rest hlen).2 p h c hc)
      · intro p hp c hc
        rw [splitRunSkip] at hp
        by_cases hd : isAlnumCI d = true
        · rw [if_pos hd] at hp
          rcases (ih rest hlen).1 [d] p hp c hc with h | h
          · exact List.mem_cons_of_mem _ h
          · simp at h
            simp [h]
        · rw [if_neg hd] at hp
          exact List.mem_cons_of_mem _ ((ih rest hlen).2 p hp c hc)

/-- C10: a query in which every maximal alphanumeric run has length ≤ 1
tokenizes to nothing and is rejected with "Provide a more descriptive
query." independently of the file system (no file is walked or read);
conversely any scan that executes has a non-empty, deduplicated set of
lower-cased tokens, each of length ≥ 2. -/
theorem searchSemantic_rejects_trivial_query (query : List Char) :
    (jsDedup (tokenize query) = [] ↔ hasAdjacentAlnum query = false) ∧
    (hasAdjacentAlnum query = false →
      ∀ files files' : List LexFile, ∀ maxResults maxSnippetLength : Nat,
        searchSemanticModel query files maxResults maxSnippetLength =
          Except.error "Provide a more descriptive query." ∧
        searchSemanticModel query files maxResults maxSnippetLength =
          searchSemanticModel query files' maxResults maxSnippetLength) ∧
    (hasAdjacentAlnum query = true →
      jsDedup (tokenize query) ≠ [] ∧
      (jsDedup (tokenize query)).Nodup ∧
      ∀ t ∈ jsDedup (tokenize query), 2 ≤ t.length ∧ ∀ c ∈ t, jsToLower c = c) := by
  have hiff : jsDedup (tokenize query) = [] ↔ hasAdjacentAlnum query = false := by
    rw [jsDedup_eq_nil_iff]
    exact tokenize_eq_nil_iff query
  refine ⟨hiff, ?_, ?_⟩
  · intro h files files' maxResults maxSnippetLength
    have ht : jsDedup (tokenize query) = [] := hiff.mpr h
    constructor
    · unfold searchSemanticModel
      rw [if_pos ht]
    · unfold searchSemanticModel
      rw [if_pos ht, if_pos ht]
  · intro h
    refine ⟨fun habs => by rw [hiff.mp habs] at h; simp at h, dedupGo_nodup _ _, ?_⟩
    intro t ht
    have htok : t ∈ tokenize query := mem_dedupGo _ _ _ ht
    unfold tokenize at htok
    have hlen : 1 < t.length := by
      have := List.of_mem_filter htok
      simpa using this
    have hmem : t ∈ jsSplitNonAlnum (lowerStr query) := List.mem_of_mem_filter htok
    refine ⟨hlen, ?_⟩
    intro c hc
    unfold jsSplitNonAlnum at hmem
    rcases (splitRun_chars (lowerStr query).length (lowerStr query) le_rfl).1 []
      t hmem c hc with hcl | hcl
    · rcases List.mem_map.mp hcl with ⟨d, _, hd⟩
      rw [← hd]
      exact jsToLower_idem d
    · simp at hcl

/-- Witness for C10 at concrete queries: `"a b"` has only unit runs and is
rejected regardless of the file list; `"ab"` has an adjacent pair and
yields the token list `["ab"]`. -/
theorem searchSemantic_rejects_trivial_query_witness :
    searchSemanticModel ['a', ' ', 'b'] [⟨"x.ts", ['a', 'b'], false⟩] 5 600 =
      Except.error "Provide a more descriptive query." ∧
    jsDedup (tokenize ['a', 'b']) ≠ [] :=
  ⟨((searchSemantic_rejects_trivial_query ['a', ' ', 'b']).2.1 (by decide)
      [⟨"x.ts", ['a', 'b'], false⟩] [] 5 600).1,
    ((searchSemantic_rejects_trivial_query ['a', 'b']).2.2 (by decide)).1⟩

/-! #### C8: the verbatim-phrase bonus dominates a lone repeated token -/

theorem occCount_pos (needle : List Char) (hne : needle ≠ []) :
    ∀ (n : Nat) (haystack : List Char), haystack.length ≤ n → needle <:+: haystack →
      0 < occCount needle hne haystack := by
  intro n
  induction n with
  | zero =>
    intro haystack hl h
    have : haystack = [] := List.eq_nil_of_length_eq_zero (by omega)
    subst this
    exact absurd (List.eq_nil_of_infix_nil h) hne
  | succ n ih =>
    intro haystack hl h
    match haystack with
    | [] => exact absurd (List.eq_nil_of_infix_nil h) hne
    | c :: rest =>
      rw [occCount]
      by_cases hpre : needle.isPrefixOf (c :: rest) = true
      · rw [if_pos hpre]
        omega
      · rw [if_neg hpre]
        rcases List.infix_cons_iff.mp h with hp | hi
        · exact absurd (List.isPrefixOf_iff_prefix.mpr hp) hpre
        · exact ih rest (by simp only [List.length_cons] at hl; omega) hi

theorem occurrencesOf_pos_of_substring (haystack needle : List Char)
    (hne : needle ≠ []) (h : needle <:+: haystack) :
    0 < occurrencesOf haystack needle := by
  unfold occurrencesOf
  rw [dif_neg hne]
  exact occCount_pos needle hne haystack.length haystack le_rfl h

theorem tokenScore_ge_of_occ_pos (lowerContent tok : List Char)
    (h : 0 < occurrencesOf lowerContent tok) :
    tok.length + 1 ≤ tokenScore lowerContent tok := by
  unfold tokenScore
  simp only [if_pos h]
  calc tok.length + 1 = 1 * (tok.length + 1) := by omega
    _ ≤ occurrencesOf lowerContent tok * (tok.length + 1) :=
      Nat.mul_le_mul_right _ h

/-- C8: under the lexical scorer with query "database connection pool", any
(lower-cased) file content containing the exact phrase scores at least
`3 × len(query) + (9 + 11 + 5)`, strictly more than the
`2 × (len("database") + 1) = 18` of a file containing only the token
"database" twice. -/
theorem lexical_phrase_beats_token_only (contentA contentB : List Char)
    (hA : "database connection pool".toList <:+: contentA)
    (hBdb : occurrencesOf contentB "database".toList = 2)
    (hBconn : occurrencesOf contentB "connection".toList = 0)
    (hBpool : occurrencesOf contentB "pool".toList = 0) :
    fileScore (lowerStr "database connection pool".toList)
        (jsDedup (tokenize "database connection pool".toList)) contentB =
      2 * ("database".toList.length + 1) ∧
    "database connection pool".toList.length * 3 +
        ("database".toList.length + 1) + ("connection".toList.length + 1) +
        ("pool".toList.length + 1) ≤
      fileScore (lowerStr "database connection pool".toList)
        (jsDedup (tokenize "database connection pool".toList)) contentA ∧
    fileScore (lowerStr "database connection pool".toList)
        (jsDedup (tokenize "database connection pool".toList)) contentB <
      fileScore (lowerStr "database connection pool".toList)
        (jsDedup (tokenize "database connection pool".toList)) contentA := by
  have hql : lowerStr "database connection pool".toList =
      "database connection pool".toList := by decide
  have htokens : jsDedup (tokenize "database connection pool".toList) =
      ["database".toList, "connection".toList, "pool".toList] := by decide
  have hBscore : fileScore (lowerStr "database connection pool".toList)
      (jsDedup (tokenize "database connection pool".toList)) contentB =
      2 * ("database".toList.length + 1) := by
    rw [hql, htokens]
    unfold fileScore
    have hninc : jsIncludes contentB "database connection pool".toList = false := by
      unfold jsIncludes
      simp only [decide_eq_false_iff_not]
      intro habs
      have hconn : "connection".toList <:+: "database connection pool".toList := by
        decide
      have : 0 < occurrencesOf contentB "connection".toList :=
        occurrencesOf_pos_of_substring _ _ (by decide) (hconn.trans habs)
      omega
    rw [hninc]
    simp only [Bool.false_eq_true, if_false, List.map_cons, List.map_nil,
      List.sum_cons, List.sum_nil]
    unfold tokenScore
    rw [hBdb, hBconn, hBpool]
    norm_num
  have hAbound : "database connection pool".toList.length * 3 +
      ("database".toList.length + 1) + ("connection".toList.length + 1) +
      ("pool".toList.length + 1) ≤
      fileScore (lowerStr "database connection pool".toList)
        (jsDedup (tokenize "database connection pool".toList)) contentA := by
    rw [hql, htokens]
    unfold fileScore
    have hinc : jsIncludes contentA "database connection pool".toList = true := by
      unfold jsIncludes
      simpa using hA
    rw [hinc]
    simp only [if_true, List.map_cons, List.map_nil, List.sum_cons, List.sum_nil]
    have hdb : "database".toList.length + 1 ≤ tokenScore contentA "database".toList :=
      tokenScore_ge_of_occ_pos _ _ (occurrencesOf_pos_of_substring _ _ (by decide)
        ((by decide : "database".toList <:+: "database connection pool".toList).trans hA))
    have hconn : "connection".toList.length + 1 ≤
        tokenScore contentA "connection".toList :=
      tokenScore_ge_of_occ_pos _ _ (occurrencesOf_pos_of_substring _ _ (by decide)
        ((by decide : "connection".toList <:+: "database connection pool".toList).trans hA))
    have hpool : "pool".toList.length + 1 ≤ tokenScore contentA "pool".toList :=
      tokenScore_ge_of_occ_pos _ _ (occurrencesOf_pos_of_substring _ _ (by decide)
        ((by decide : "pool".toList <:+: "database connection pool".toList).trans hA))
    omega
  refine ⟨hBscore, hAbound, ?_⟩
  have hlen : "database connection pool".toList.length = 24 := by decide
  have hdbl : "database".toList.length = 8 := by decide
  have hconnl : "connection".toList.length = 10 := by decide
  have hpooll : "pool".toList.length = 4 := by decide
  omega

/-- Witness for C8: the phrase file is the phrase itself; the token-only
file is "database database". -/
theorem lexical_phrase_beats_token_only_witness :
    fileScore (lowerStr "database connection pool".toList)
        (jsDedup (tokenize "database connection pool".toList))
        "database database".toList <
      fileScore (lowerStr "database connection pool".toList)
        (jsDedup (tokenize "database connection pool".toList))
        "database connection pool".toList :=
  (lexical_phrase_beats_token_only "database connection pool".toList
    "database database".toList (by decide)
    (by simp +decide [occurrencesOf, occCount])
    (by simp +decide [occurrencesOf, occCount])
    (by simp +decide [occurrencesOf, occCount])).2.2

/-! #### C9: snippet window and line-number bounds -/

theorem countLineBreaks_eq_count (l : List Char) :
    countLineBreaks l = l.count '\n' := by
  induction l using countLineBreaks.induct with
  | case1 rest ih =>
    rw [countLineBreaks, ih]
    simp [List.count_cons]
    omega
  | case2 rest ih =>
    rw [countLineBreaks, ih]
    simp [List.count_cons]
    omega
  | case3 c rest h1 h2 ih =>
    rw [countLineBreaks.eq_3 c rest h1 h2, ih]
    simp [List.count_cons, h2]
    exact h2
  | case4 => rfl

theorem countLineBreaks_take_le (l : List Char) (n : Nat) :
    countLineBreaks (l.take n) ≤ countLineBreaks l := by
  rw [countLineBreaks_eq_count, countLineBreaks_eq_count]
  exact (List.take_sublist n l).count_le _

theorem idxGo_some_bound (needle : List Char) :
    ∀ haystack i, idxGo needle haystack = some i →
      i + needle.length ≤ haystack.length := by
  intro haystack
  induction haystack with
  | nil =>
    intro i h
    rw [idxGo] at h
    by_cases hn : needle = []
    · rw [if_pos hn] at h
      simp at h
      simp [hn, ← h]
    · rw [if_neg hn] at h
      simp at h
  | cons c rest ih =>
    intro i h
    rw [idxGo] at h
    by_cases hpre : needle.isPrefixOf (c :: rest) = true
    · rw [if_pos hpre] at h
      have hi : i = 0 := by
        simp at h
        omega
      subst hi
      have hlen := (List.isPrefixOf_iff_prefix.mp hpre).length_le
      simp only [List.length_cons] at hlen ⊢
      omega
    · rw [if_neg hpre] at h
      simp only [Option.map_eq_some'] at h
      rcases h with ⟨j, hj, hji⟩
      have := ih j hj
      simp only [List.length_cons]
      omega

theorem idxGo_some_of_substring (needle : List Char) (hne : needle ≠ []) :
    ∀ haystack, needle <:+: haystack → ∃ i, idxGo needle haystack = some i := by
  intro haystack
  induction haystack with
  | nil =>
    intro h
    exact absurd (List.eq_nil_of_infix_nil h) hne
  | cons c rest ih =>
    intro h
    rw [idxGo]
    by_cases hpre : needle.isPrefixOf (c :: rest) = true
    · rw [if_pos hpre]
      exact ⟨0, rfl⟩
    · rw [if_neg hpre]
      rcases List.infix_cons_iff.mp h with hp | hi
      · exact absurd (List.isPrefixOf_iff_prefix.mpr hp) hpre
      · rcases ih hi with ⟨j, hj⟩
        exact ⟨j + 1, by rw [hj]; rfl⟩

theorem substring_of_occCount_pos (needle : List Char) (hne : needle ≠ []) :
    ∀ haystack, 0 < occCount needle hne haystack → needle <:+: haystack := by
  intro haystack
  induction haystack using occCount.induct needle hne with
  | case1 => intro h; rw [occCount] at h; omega
  | case2 c rest hpre ih =>
    intro _
    exact (List.isPrefixOf_iff_prefix.mp hpre).isInfix
  | case3 c rest hpre ih =>
    intro h
    rw [occCount, if_neg hpre] at h
    exact List.infix_cons_iff.mpr (Or.inr (ih h))

theorem substring_of_occurrencesOf_pos (haystack needle : List Char)
    (h : 0 < occurrencesOf haystack needle) : needle <:+: haystack := by
  unfold occurrencesOf at h
  by_cases hne : needle = []
  · rw [dif_pos hne] at h; omega
  · rw [dif_neg hne] at h
    exact substring_of_occCount_pos needle hne haystack h

theorem tokenAnchor_spec (lowerContent : List Char) :
    ∀ tokens : List (List Char), (∃ t ∈ tokens, 0 < occurrencesOf lowerContent t) →
      ∃ tok, 0 < occurrencesOf lowerContent tok ∧
        tokenAnchor lowerContent tokens = (jsIndexOf lowerContent tok, tok) := by
  intro tokens
  induction tokens with
  | nil => intro h; simp at h
  | cons tok rest ih =>
    intro h
    rw [tokenAnchor]
    by_cases ht : 0 < occurrencesOf lowerContent tok
    · rw [if_pos ht]
      exact ⟨tok, ht, rfl⟩
    · rw [if_neg ht]
      rcases h with ⟨t, htmem, hocc⟩
      rcases List.mem_cons.mp htmem with heq | hmem
      · subst heq; exact absurd hocc ht
      · exact ih ⟨t, hmem, hocc⟩

/-- Any file the scan loop keeps (positive score) gets an anchor that is a
real position in the content, given the scan's invariants (non-empty query,
non-empty tokens — guaranteed after tokenization, cf. C10). -/
theorem anchorOf_valid (queryLower lowerContent : List Char)
    (tokens : List (List Char)) (hq : queryLower ≠ [])
    (hscore : 0 < fileScore queryLower tokens lowerContent) :
    0 ≤ (anchorOf queryLower tokens lowerContent).1 ∧
    (anchorOf queryLower tokens lowerContent).1.toNat < lowerContent.length := by
  unfold anchorOf
  by_cases hinc : jsIncludes lowerContent queryLower = true
  · rw [if_pos hinc]
    have hinf : queryLower <:+: lowerContent := by
      unfold jsIncludes at hinc
      simpa using hinc
    rcases idxGo_some_of_substring queryLower hq lowerContent hinf with ⟨i, hi⟩
    have hbound := idxGo_some_bound queryLower lowerContent i hi
    have hqlen : 0 < queryLower.length := List.length_pos.mpr hq
    unfold jsIndexOf
    rw [hi]
    simp only []
    constructor
    · exact Int.natCast_nonneg i
    · simp only [Int.toNat_natCast]
      omega
  · rw [if_neg hinc]
    have hsum : 0 < (tokens.map (tokenScore lowerContent)).sum := by
      unfold fileScore at hscore
      rw [if_neg hinc] at hscore
      simpa using hscore
    have hex : ∃ t ∈ tokens, 0 < occurrencesOf lowerContent t := by
      by_contra habs
      push_neg at habs
      have : (tokens.map (tokenScore lowerContent)).sum = 0 := by
        apply List.sum_eq_zero
        intro x hx
        rcases List.mem_map.mp hx with ⟨t, htmem, hteq⟩
        have := habs t htmem
        rw [← hteq]
        unfold tokenScore
        simp only []
        rw [if_neg (by omega)]
      omega
    rcases tokenAnchor_spec lowerContent tokens hex with ⟨tok, hocc, heq⟩
    rw [heq]
    have hinf : tok <:+: lowerContent := substring_of_occurrencesOf_pos _ _ hocc
    have htne : tok ≠ [] := by
      intro habs
      subst habs
      unfold occurrencesOf at hocc
      rw [dif_pos rfl] at hocc
      omega
    rcases idxGo_some_of_substring tok htne lowerContent hinf with ⟨i, hi⟩
    have hbound := idxGo_some_bound tok lowerContent i hi
    have htlen : 0 < tok.length := List.length_pos.mpr htne
    unfold jsIndexOf
    rw [hi]
    simp only []
    constructor
    · exact Int.natCast_nonneg i
    · simp only [Int.toNat_natCast]
      omega

/-- C9: given an anchor that is a real position of the file content, the
snippet is the window of at most `maxLength` characters centered on the
anchor (`⌊maxLength/2⌋` before it), clipped to the file bounds — it never
exceeds `maxLength` at all — and the reported 1-based line number counts
the line breaks strictly before the anchor and lies within
`[1, totalLines]`. -/
theorem buildSnippet_window_and_line (content lowerContent : List Char)
    (tokens : List (List Char)) (index : Int) (maxLength : Nat)
    (h0 : 0 ≤ index) (_hlt : index.toNat < content.length) :
    (buildSnippet content lowerContent index maxLength tokens).text.length ≤
      maxLength ∧
    (buildSnippet content lowerContent index maxLength tokens).text =
      (content.drop (index.toNat - maxLength / 2)).take
        (min content.length (index.toNat - maxLength / 2 + maxLength) -
          (index.toNat - maxLength / 2)) ∧
    (buildSnippet content lowerContent index maxLength tokens).lineNumber =
      countLineBreaks (content.take index.toNat) + 1 ∧
    1 ≤ (buildSnippet content lowerContent index maxLength tokens).lineNumber ∧
    (buildSnippet content lowerContent index maxLength tokens).lineNumber ≤
      countLineBreaks content + 1 := by
  have hne : ¬ index = -1 := by omega
  unfold buildSnippet
  simp only [if_neg hne]
  refine ⟨?_, trivial, trivial, by omega, ?_⟩
  · simp only [List.length_take, List.length_drop]
    omega
  · have := countLineBreaks_take_le content index.toNat
    omega

/-- Witness for C9: content `"hello\nworld"`, anchor at position 6 (the
`w`), `maxLength = 4`. -/
theorem buildSnippet_window_and_line_witness :
    (buildSnippet "hello\nworld".toList "hello\nworld".toList 6 4 []).text.length ≤ 4 ∧
    (buildSnippet "hello\nworld".toList "hello\nworld".toList 6 4 []).lineNumber = 2 :=
  ⟨(buildSnippet_window_and_line "hello\nworld".toList "hello\nworld".toList []
      6 4 (by decide) (by decide)).1,
    by decide⟩

/-! ### Vector store (`lib/vector-store.ts`)
The store is the `repo_embeddings` table as a list of rows; a Postgres
transaction is modelled explicitly: statements act on a working snapshot,
`COMMIT` publishes it, and an injected failure (`failAt`) triggers
`ROLLBACK`, restoring the state at `BEGIN`. -/

structure Row where
  repoSlug : String
  branch : Option String
  commitSha : Option String
  filePath : List Char
  chunkIndex : Nat
  content : List Char
  embedding : List ℚ
  embeddingModel : String
deriving Repr, DecidableEq

abbrev Store := List Row

structure ChunkRecord where
  filePath : List Char
  chunkIndex : Nat
  content : List Char
  embedding : List ℚ
deriving Repr, DecidableEq

inductive TxnStep where
  | deleteRepo (slug : String)
  | insertRow (row : Row)
deriving Repr, DecidableEq

def applyTxnStep (buf : Store) : TxnStep → Store
  | .deleteRepo slug => buf.filter fun r => decide (r.repoSlug ≠ slug)
  | .insertRow row => buf ++ [row]

/-- Run `BEGIN; steps…; COMMIT`: `failAt = some k` makes the `k`-th
statement (or the `COMMIT`, at `k = steps.length`) fail, so the transaction
rolls back (`none`); otherwise the fold of the statements is committed. -/
def runTxn (store : Store) (steps : List TxnStep) (failAt : Option Nat) :
    Option Store :=
  match failAt with
  | some k => if k ≤ steps.length then none else some (steps.foldl applyTxnStep store)
  | none => some (steps.foldl applyTxnStep store)

def rowOfChunk (repoSlug : String) (branch commitSha : Option String)
    (embeddingModel : String) (c : ChunkRecord) : Row :=
  ⟨repoSlug, branch, commitSha, c.filePath, c.chunkIndex, c.content,
    c.embedding, embeddingModel⟩

/-- `replaceRepoEmbeddings`: an empty chunk list short-circuits with
`inserted = 0` and no transaction at all; otherwise one transaction deletes
every row of the `repoSlug` and inserts each chunk in order; on any failure
the transaction rolls back and the error propagates. -/
def replaceRepoEmbeddings (store : Store) (repoSlug : String)
    (branch commitSha : Option String) (embeddingModel : String)
    (chunks : List ChunkRecord) (failAt : Option Nat) :
    Except String (String × Nat) × Store :=
  if chunks.length = 0 then (.ok (repoSlug, 0), store)
  else
    let steps := TxnStep.deleteRepo repoSlug ::
      chunks.map fun c =>
        TxnStep.insertRow (rowOfChunk repoSlug branch commitSha embeddingModel c)
    match runTxn store steps failAt with
    | some store' => (.ok (repoSlug, chunks.length), store')
    | none => (.error "store transaction failure", store)

/-- `pgvector`'s `<#>` operator: the *negative inner product*. -/
def negInnerProduct (a b : List ℚ) : ℚ := -(List.zipWith (fun x y => x * y) a b).sum

/-- `vectorSimilaritySearch`: reject an empty query embedding, then select
the rows of `repoSlug` ordered by ascending `embedding <#> query`, limit
`limit`, each scored `1 - (embedding <#> query)`. -/
def vectorSimilaritySearch (store : Store) (repoSlug : String)
    (embedding : List ℚ) (limit : Nat) :
    Except String (List (Row × ℚ)) :=
  if embedding.length = 0 then .error "Query embedding is empty."
  else
    let rows := store.filter fun r => decide (r.repoSlug = repoSlug)
    let sorted := rows.mergeSort fun r1 r2 =>
      negInnerProduct r1.embedding embedding ≤ negInnerProduct r2.embedding embedding
    .ok ((sorted.take limit).map fun r =>
      (r, 1 - negInnerProduct r.embedding embedding))

/-- The spec's metric: Euclidean norm of a rational vector, as a real. -/
noncomputable def l2norm (v : List ℚ) : ℝ :=
  Real.sqrt (((v.map fun x => x * x).sum : ℚ) : ℝ)

/-- Modelled from the spec: cosine similarity of the stored and query
vectors ("score = 1 − distance … the cosine similarity of the two
vectors"). -/
noncomputable def cosineSimilarity (a b : List ℚ) : ℝ :=
  (((List.zipWith (fun x y => x * y) a b).sum : ℚ) : ℝ) / (l2norm a * l2norm b)

/-- Modelled from the spec: cosine distance, `1 − cosine similarity`. -/
noncomputable def cosineDistance (a b : List ℚ) : ℝ := 1 - cosineSimilarity a b

/-- JavaScript truthiness of an optional string: `undefined`/`null` and the
empty string are falsy. -/
def strFalsy : Option String → Bool
  | none => true
  | some s => decide (s = "")

/-- `repoEmbeddingsUpToDate`: false when `repoSlug.trim()` is empty or
`commitSha` is falsy; otherwise an existence check for a row matching
`repo_slug`, `commit_sha`, and (when the model name is truthy)
`embedding_model`. -/
def repoEmbeddingsUpToDate (store : Store) (repoSlug : String)
    (commitSha : Option String) (embeddingModel : String) : Bool :=
  if jsTrim repoSlug.toList = [] || strFalsy commitSha then false
  else store.any fun r =>
    decide (r.repoSlug = repoSlug) && decide (r.commitSha = commitSha) &&
      (decide (embeddingModel = "") || decide (r.embeddingModel = embeddingModel))

/-! ### Indexing orchestrator (`indexRepositoryEmbeddings`)
File walking, file reading, the embedding service and path resolution are
oracles; the model records every file read, embedding call and store
replace as an effect. -/

/-- A candidate file as the walker + `readTextFile` deliver it:
its repo-relative path and its content (`none` models a read failure). -/
structure WalkedFile where
  relativePath : List Char
  content : Option (List Char)
deriving Repr, DecidableEq

structure ChunkPayload where
  filePath : List Char
  chunkIndex : Nat
  content : List Char
deriving Repr, DecidableEq

inductive Effect where
  | fileRead (path : List Char)
  | embedCall (values : List (List Char))
  | storeReplace
deriving Repr, DecidableEq

structure IndexEnv where
  apiKeyPresent : Bool
  storeConfigured : Bool
deriving Repr, DecidableEq

/-- The summary object returned by a run; branches that omit fields in the
source (e.g. the "no text files" summary) use `none`/`false`/`[]` there. -/
structure IndexSummary where
  repoSlug : String
  repoPath : String
  branch : Option String
  commitSha : Option String
  filesIndexed : Nat
  chunksIndexed : Nat
  skippedFiles : List (List Char)
  embeddingModel : String
  message : Option String
  skipped : Bool
deriving Repr, DecidableEq

/-- `path.basename`: the part after the last `/`. -/
def basenameOf (p : List Char) : List Char :=
  (p.reverse.takeWhile fun c => decide (c ≠ '/')).reverse

/-- `path.extname` of a basename: from the last `.` to the end; empty when
there is no `.` or the only `.` leads the name. -/
def extnameOf (base : List Char) : List Char :=
  let afterDot := (base.reverse.takeWhile fun c => decide (c ≠ '.')).reverse
  if afterDot.length = base.length then []
  else if afterDot.length + 1 = base.length then []
  else '.' :: afterDot

def embeddingSkipBasenames : List (List Char) :=
  ["package.json".toList, "package-lock.json".toList, "pnpm-lock.yaml".toList,
    "yarn.lock".toList, "pnpm-workspace.yaml".toList, "bun.lockb".toList,
    "composer.json".toList, "composer.lock".toList, "gemfile".toList,
    "gemfile.lock".toList, "go.sum".toList, "go.mod".toList,
    "poetry.lock".toList, "pipfile".toList, "pipfile.lock".toList,
    "mix.lock".toList, "pubspec.yaml".toList, "pubspec.lock".toList,
    "cargo.lock".toList, "environment.yml".toList, "environment.yaml".toList]

def embeddingSkipExtensions : List (List Char) := [".lock".toList, ".lockb".toList]

/-- `shouldSkipForEmbedding`: lower-cased basename in the skip set, or a
`requirements*.txt` / `constraints*.txt` match, or a skipped extension. -/
def shouldSkipForEmbedding (relativePath : List Char) : Bool :=
  let basename := lowerStr (basenameOf relativePath)
  basename ∈ embeddingSkipBasenames ||
    ((decide ("requirements".toList <+: basename) ||
        decide ("constraints".toList <+: basename)) &&
      decide (".txt".toList <:+ basename)) ||
    extnameOf basename ∈ embeddingSkipExtensions

/-- The per-file accumulation loop of the orchestrator: cap at `maxChunks`,
apply static skip rules before reading, treat unreadable files as skipped,
chunk the survivors and append their records in file order. -/
def collectLoop (maxChunks chunkSize chunkOverlap : Nat) :
    List WalkedFile → List ChunkPayload → Nat → List (List Char) → List Effect →
      List ChunkPayload × Nat × List (List Char) × List Effect
  | [], records, filesVisited, skippedFiles, effects =>
    (records, filesVisited, skippedFiles, effects)
  | f :: rest, records, filesVisited, skippedFiles, effects =>
    if maxChunks ≤ records.length then (records, filesVisited, skippedFiles, effects)
    else if shouldSkipForEmbedding f.relativePath then
      collectLoop maxChunks chunkSize chunkOverlap rest records filesVisited
        (skippedFiles ++ [f.relativePath]) effects
    else
      match f.content with
      | none =>
        collectLoop maxChunks chunkSize chunkOverlap rest records filesVisited
          (skippedFiles ++ [f.relativePath]) (effects ++ [.fileRead f.relativePath])
      | some content =>
        let fileChunks := chunkContent content chunkSize chunkOverlap
        if fileChunks.length = 0 then
          collectLoop maxChunks chunkSize chunkOverlap rest records filesVisited
            (skippedFiles ++ [f.relativePath]) (effects ++ [.fileRead f.relativePath])
        else
          collectLoop maxChunks chunkSize chunkOverlap rest
            (records ++ (fileChunks.map fun ch =>
              (⟨f.relativePath, ch.chunkIndex, ch.text⟩ : ChunkPayload)).take
                (maxChunks - records.length))
            (filesVisited + 1) skippedFiles (effects ++ [.fileRead f.relativePath])

def embeddingBatchSize : Nat := 96

/-- The batching loop: slice the values into batches of 96, call the
embedding service per batch in order, and concatenate the returned vectors
preserving position. -/
def embedBatchLoop (embedFn : List (List Char) → List (List ℚ)) :
    (values : List (List Char)) → List (List ℚ) × List Effect
  | [] => ([], [])
  | v :: vs =>
    let values := v :: vs
    let batch := values.take embeddingBatchSize
    let rest := embedBatchLoop embedFn (values.drop embeddingBatchSize)
    (embedFn batch ++ rest.1, .embedCall batch :: rest.2)
termination_by values => values.length
decreasing_by
  simp [embeddingBatchSize]
  omega

def mkChunkRecord (p : ChunkPayload × List ℚ) : ChunkRecord :=
  ⟨p.1.filePath, p.1.chunkIndex, p.1.content, p.2⟩

/-- `indexRepositoryEmbeddings`: environment checks, the `chunkOverlap <
chunkSize` guard, the idempotency short-circuit, chunk collection, batched
embedding with the count-mismatch guard, and the snapshot replace.
`resolvedRepoPath = none` models `resolveWorkspacePath` throwing. Returns
the run's outcome, the final store, and the effect trace. -/
def indexRepositoryEmbeddings (env : IndexEnv) (store : Store)
    (repoSlug : String) (resolvedRepoPath : Option String)
    (branch commitSha : Option String)
    (maxChunks chunkSize chunkOverlap : Nat)
    (embeddingModel : String) (forceReindex : Bool)
    (candidateFiles : List WalkedFile)
    (embedFn : List (List Char) → List (List ℚ))
    (storeFailAt : Option Nat) :
    Except String IndexSummary × Store × List Effect :=
  if !env.apiKeyPresent then
    (.error "OPENAI_API_KEY is required to generate embeddings.", store, [])
  else if !env.storeConfigured then
    (.error "Vector store is not configured. Set PGVECTOR_DATABASE_URL (or DATABASE_URL) before indexing.", store, [])
  else if chunkSize ≤ chunkOverlap then
    (.error "`chunkOverlap` must be smaller than `chunkSize`.", store, [])
  else if !forceReindex && !(strFalsy commitSha) &&
      repoEmbeddingsUpToDate store repoSlug commitSha embeddingModel then
    match resolvedRepoPath with
    | none => (.error "Path escapes the repository root.", store, [])
    | some repoRelative =>
      (.ok ⟨repoSlug, repoRelative, branch, commitSha, 0, 0, [], embeddingModel,
        some "Embeddings already exist for this commit. Skipping reindex.", true⟩,
        store, [])
  else
    match resolvedRepoPath with
    | none => (.error "Path escapes the repository root.", store, [])
    | some repoRelative =>
      if candidateFiles.length = 0 then
        (.ok ⟨repoSlug, repoRelative, none, none, 0, 0, [], embeddingModel,
          some "No text files found to index.", false⟩, store, [])
      else
        let collected := collectLoop maxChunks chunkSize chunkOverlap
          candidateFiles [] 0 [] []
        let records := collected.1
        if records.length = 0 then
          (.ok ⟨repoSlug, repoRelative, none, none, 0, 0, [], embeddingModel,
            some "No eligible chunks to index. Files may have been empty or binary.",
            false⟩, store, collected.2.2.2)
        else
          let embRes := embedBatchLoop embedFn (records.map fun r => r.content)
          let effects := collected.2.2.2 ++ embRes.2
          if embRes.1.length ≠ records.length then
            (.error "Embedding count mismatch. Aborting indexing.", store, effects)
          else
            let chunksWithEmbeddings := (records.zip embRes.1).map mkChunkRecord
            let rep := replaceRepoEmbeddings store repoSlug branch commitSha
              embeddingModel chunksWithEmbeddings storeFailAt
            match rep.1 with
            | .error e => (.error e, rep.2, effects ++ [.storeReplace])
            | .ok _ =>
              (.ok ⟨repoSlug, repoRelative, branch, commitSha, collected.2.1,
                records.length, collected.2.2.1, embeddingModel, none, false⟩,
                rep.2, effects ++ [.storeReplace])

/-! #### C1: snapshot replace is transactional -/

theorem foldl_insertRows (rows : List Row) :
    ∀ base : Store, (rows.map TxnStep.insertRow).foldl applyTxnStep base = base ++ rows := by
  induction rows with
  | nil => intro base; simp
  | cons r rest ih =>
    intro base
    simp only [List.map_cons, List.foldl_cons, applyTxnStep, ih]
    simp

theorem rowOfChunk_slug (repoSlug : String) (branch commitSha : Option String)
    (model : String) (c : ChunkRecord) :
    (rowOfChunk repoSlug branch commitSha model c).repoSlug = repoSlug := rfl

/-- C1 (amended): with a non-empty chunk list the call is one all-or-nothing
transaction — on success the rows of `repoSlug` are exactly the supplied
chunks (in order), rows of other slugs are untouched, and the inserted count
is returned; on any failure the store is exactly the prior snapshot.  With
an *empty* chunk list the call short-circuits: it returns `inserted = 0`
without deleting the prior rows of the slug. -/
theorem replaceRepoEmbeddings_atomic (store : Store) (repoSlug : String)
    (branch commitSha : Option String) (model : String)
    (chunks : List ChunkRecord) (failAt : Option Nat) :
    (chunks ≠ [] →
      ∀ n, (replaceRepoEmbeddings store repoSlug branch commitSha model chunks
          failAt).1 = .ok (repoSlug, n) →
        n = chunks.length ∧
        (replaceRepoEmbeddings store repoSlug branch commitSha model chunks
            failAt).2.filter (fun r => decide (r.repoSlug = repoSlug)) =
          chunks.map (rowOfChunk repoSlug branch commitSha model) ∧
        (replaceRepoEmbeddings store repoSlug branch commitSha model chunks
            failAt).2.filter (fun r => decide (r.repoSlug ≠ repoSlug)) =
          store.filter (fun r => decide (r.repoSlug ≠ repoSlug))) ∧
    (∀ e, (replaceRepoEmbeddings store repoSlug branch commitSha model chunks
        failAt).1 = .error e →
      (replaceRepoEmbeddings store repoSlug branch commitSha model chunks
        failAt).2 = store) ∧
    (chunks = [] →
      (replaceRepoEmbeddings store repoSlug branch commitSha model chunks
        failAt).1 = .ok (repoSlug, 0) ∧
      (replaceRepoEmbeddings store repoSlug branch commitSha model chunks
        failAt).2 = store) := by
  by_cases hempty : chunks.length = 0
  · have hnil : chunks = [] := List.eq_nil_of_length_eq_zero hempty
    subst hnil
    unfold replaceRepoEmbeddings
    simp
  · have hne : chunks ≠ [] := by
      intro habs; subst habs; simp at hempty
    unfold replaceRepoEmbeddings
    rw [if_neg hempty]
    simp only []
    have hsucc : ∀ store',
        runTxn store (TxnStep.deleteRepo repoSlug :: chunks.map fun c =>
          TxnStep.insertRow (rowOfChunk repoSlug branch commitSha model c)) failAt =
          some store' →
        store' = store.filter (fun r => decide (r.repoSlug ≠ repoSlug)) ++
          chunks.map (rowOfChunk repoSlug branch commitSha model) := by
      intro store' hrun
      have hfold : (TxnStep.deleteRepo repoSlug :: chunks.map fun c =>
          TxnStep.insertRow (rowOfChunk repoSlug branch commitSha model c)).foldl
            applyTxnStep store =
          store.filter (fun r => decide (r.repoSlug ≠ repoSlug)) ++
            chunks.map (rowOfChunk repoSlug branch commitSha model) := by
        have hmm : (chunks.map fun c =>
            TxnStep.insertRow (rowOfChunk repoSlug branch commitSha model c)) =
            (chunks.map (rowOfChunk repoSlug branch commitSha model)).map
              TxnStep.insertRow := by
          simp
        rw [List.foldl_cons, hmm, foldl_insertRows]
        rfl
      cases failAt with
      | none =>
        simp only [runTxn, Option.some_inj] at hrun
        rw [← hrun, hfold]
      | some k =>
        simp only [runTxn] at hrun
        by_cases hk : k ≤ (TxnStep.deleteRepo repoSlug :: chunks.map fun c =>
            TxnStep.insertRow (rowOfChunk repoSlug branch commitSha model c)).length
        · rw [if_pos hk] at hrun; cases hrun
        · rw [if_neg hk] at hrun
          simp only [Option.some_inj] at hrun
          rw [← hrun, hfold]
    refine ⟨?_, ?_, fun h => absurd h hne⟩
    · intro _ n hok
      match hrun : runTxn store (TxnStep.deleteRepo repoSlug :: chunks.map fun c =>
          TxnStep.insertRow (rowOfChunk repoSlug branch commitSha model c)) failAt with
      | some store' =>
        rw [hrun] at hok
        dsimp only at hok ⊢
        simp only [Except.ok.injEq, Prod.mk.injEq] at hok
        refine ⟨hok.2.symm, ?_, ?_⟩
        · rw [hsucc store' hrun]
          rw [List.filter_append]
          have h1 : (store.filter fun r => decide (r.repoSlug ≠ repoSlug)).filter
              (fun r => decide (r.repoSlug = repoSlug)) = [] := by
            rw [List.filter_filter]
            apply List.filter_eq_nil_iff.mpr
            intro r _
            simp
          have h2 : (chunks.map (rowOfChunk repoSlug branch commitSha model)).filter
              (fun r => decide (r.repoSlug = repoSlug)) =
              chunks.map (rowOfChunk repoSlug branch commitSha model) := by
            apply List.filter_eq_self.mpr
            intro r hr
            rcases List.mem_map.mp hr with ⟨c, _, hc⟩
            subst hc
            simp [rowOfChunk_slug]
          rw [h1, h2, List.nil_append]
        · rw [hsucc store' hrun]
          rw [List.filter_append]
          have h1 : (store.filter fun r => decide (r.repoSlug ≠ repoSlug)).filter
              (fun r => decide (r.repoSlug ≠ repoSlug)) =
              store.filter fun r => decide (r.repoSlug ≠ repoSlug) := by
            rw [List.filter_filter]
            apply List.filter_congr
            intro r _
            simp
          have h2 : (chunks.map (rowOfChunk repoSlug branch commitSha model)).filter
              (fun r => decide (r.repoSlug ≠ repoSlug)) = [] := by
            apply List.filter_eq_nil_iff.mpr
            intro r hr
            rcases List.mem_map.mp hr with ⟨c, _, hc⟩
            subst hc
            simp [rowOfChunk_slug]
          rw [h1, h2, List.append_nil]
      | none =>
        rw [hrun] at hok
        dsimp only at hok
        simp at hok
    · intro e herr
      match hrun : runTxn store (TxnStep.deleteRepo repoSlug :: chunks.map fun c =>
          TxnStep.insertRow (rowOfChunk repoSlug branch commitSha model c)) failAt with
      | some store' =>
        rw [hrun] at herr
        dsimp only at herr
        simp at herr
      | none =>
        rfl

/-- Witness for C1 (amended): a store holding one row of another run;
success replaces the slug's rows, an injected failure leaves the store
intact. -/
theorem replaceRepoEmbeddings_atomic_witness :
    (replaceRepoEmbeddings [⟨"o/r", none, none, ['a'], 0, ['x'], [1], "m"⟩]
        "o/r" none none "m" [⟨['b'], 0, ['y'], [2]⟩] none).2.filter
        (fun r => decide (r.repoSlug = "o/r")) =
      [(⟨['b'], 0, ['y'], [2]⟩ : ChunkRecord)].map (rowOfChunk "o/r" none none "m") ∧
    (replaceRepoEmbeddings [⟨"o/r", none, none, ['a'], 0, ['x'], [1], "m"⟩]
        "o/r" none none "m" [⟨['b'], 0, ['y'], [2]⟩] (some 0)).2 =
      [⟨"o/r", none, none, ['a'], 0, ['x'], [1], "m"⟩] :=
  ⟨((replaceRepoEmbeddings_atomic
      [⟨"o/r", none, none, ['a'], 0, ['x'], [1], "m"⟩] "o/r" none none "m"
      [⟨['b'], 0, ['y'], [2]⟩] none).1 (by decide) 1 rfl).2.1,
    (replaceRepoEmbeddings_atomic
      [⟨"o/r", none, none, ['a'], 0, ['x'], [1], "m"⟩] "o/r" none none "m"
      [⟨['b'], 0, ['y'], [2]⟩] (some 0)).2.1 "store transaction failure" rfl⟩

/-- C1 counterexample: with an *empty* chunk list the call succeeds with
`inserted = 0` but leaves the prior rows of the slug in place, so the store
does not hold "exactly the supplied chunks" for the slug. -/
theorem replaceRepoEmbeddings_empty_chunks_counterexample :
    (replaceRepoEmbeddings [⟨"o/r", none, none, ['a'], 0, ['x'], [1], "m"⟩]
        "o/r" none none "m" [] none).1 = .ok ("o/r", 0) ∧
    (replaceRepoEmbeddings [⟨"o/r", none, none, ['a'], 0, ['x'], [1], "m"⟩]
        "o/r" none none "m" [] none).2.filter
        (fun r => decide (r.repoSlug = "o/r")) ≠
      ([] : List ChunkRecord).map (rowOfChunk "o/r" none none "m") := by
  constructor
  · rfl
  · decide

/-! #### C2: the similarity search ranks by `<#>`, not cosine distance -/

/-- C2 exhibit: with stored embeddings `[1,0]` and `[3,4]` under one slug
and query `[1,0]`, the code returns `[3,4]` first with score `4` and `[1,0]`
second with score `2`; cosine distance ranks `[1,0]` strictly first, and the
cosine similarities are `1` and `3/5` — neither returned score equals the
cosine similarity (`1 − cosine distance`) of its row. -/
theorem vectorSimilaritySearch_not_cosine :
    vectorSimilaritySearch
        [⟨"r", none, none, ['u'], 0, ['u'], [1, 0], "m"⟩,
          ⟨"r", none, none, ['v'], 0, ['v'], [3, 4], "m"⟩] "r" [1, 0] 5 =
      .ok [(⟨"r", none, none, ['v'], 0, ['v'], [3, 4], "m"⟩, 4),
        (⟨"r", none, none, ['u'], 0, ['u'], [1, 0], "m"⟩, 2)] ∧
    cosineDistance [1, 0] [1, 0] < cosineDistance [3, 4] [1, 0] ∧
    cosineSimilarity [3, 4] [1, 0] = 3 / 5 ∧
    cosineSimilarity [1, 0] [1, 0] = 1 ∧
    ((4 : ℝ) ≠ 3 / 5 ∧ (2 : ℝ) ≠ 1) := by
  have hn34 : l2norm [3, 4] = 5 := by
    unfold l2norm
    norm_num
    rw [show (25 : ℝ) = 5 ^ 2 by norm_num, Real.sqrt_sq (by norm_num : (0:ℝ) ≤ 5)]
  have hn10 : l2norm [1, 0] = 1 := by
    unfold l2norm
    norm_num
  have hc34 : cosineSimilarity [3, 4] [1, 0] = 3 / 5 := by
    unfold cosineSimilarity
    rw [hn34, hn10]
    norm_num
  have hc10 : cosineSimilarity [1, 0] [1, 0] = 1 := by
    unfold cosineSimilarity
    rw [hn10]
    norm_num
  refine ⟨?_, ?_, hc34, hc10, by norm_num, by norm_num⟩
  · norm_num [vectorSimilaritySearch, List.mergeSort, negInnerProduct]
  · unfold cosineDistance
    rw [hc34, hc10]
    norm_num

/-! #### C7: invalid chunk configuration is rejected before any work -/

/-- C7: with credentials present and the store configured,
`chunkOverlap ≥ chunkSize` fails the run with the configuration error
before any file is read, any embedding is requested, or the store is
touched: the effect trace is empty and the store unchanged. -/
theorem indexRepo_rejects_bad_overlap (env : IndexEnv) (store : Store)
    (repoSlug : String) (resolvedRepoPath : Option String)
    (branch commitSha : Option String)
    (maxChunks chunkSize chunkOverlap : Nat)
    (embeddingModel : String) (forceReindex : Bool)
    (candidateFiles : List WalkedFile)
    (embedFn : List (List Char) → List (List ℚ))
    (storeFailAt : Option Nat)
    (hkey : env.apiKeyPresent = true) (hcfg : env.storeConfigured = true)
    (hbad : chunkSize ≤ chunkOverlap) :
    indexRepositoryEmbeddings env store repoSlug resolvedRepoPath branch commitSha
        maxChunks chunkSize chunkOverlap embeddingModel forceReindex
        candidateFiles embedFn storeFailAt =
      (.error "`chunkOverlap` must be smaller than `chunkSize`.", store, []) := by
  unfold indexRepositoryEmbeddings
  rw [hkey, hcfg]
  simp [hbad]

/-- Witness for C7 at a concrete input (`chunkSize = 200 ≤ chunkOverlap =
300`). -/
theorem indexRepo_rejects_bad_overlap_witness :
    indexRepositoryEmbeddings ⟨true, true⟩ [] "o/r" (some "repo") none none
        2000 200 300 "m" false [] (fun _ => []) none =
      (.error "`chunkOverlap` must be smaller than `chunkSize`.", [], []) :=
  indexRepo_rejects_bad_overlap ⟨true, true⟩ [] "o/r" (some "repo") none none
    2000 200 300 "m" false [] (fun _ => []) none rfl rfl (by norm_num)

/-! #### C6: the idempotency short-circuit -/

/-- C6 counterexample: with `commitSha` equal to the *empty string*, a row
matching `(repoSlug, commitSha, embeddingModel)` exists, `forceReindex` is
unset, yet the run is not tagged `skipped = true` — the empty commit SHA is
falsy, so the up-to-date check is bypassed and the run proceeds. -/
theorem indexRepo_stale_skip_counterexample :
    (∃ r ∈ ([⟨"o/r", none, some "", ['a'], 0, ['x'], [1], "m"⟩] : Store),
      r.repoSlug = "o/r" ∧ r.commitSha = some "" ∧ r.embeddingModel = "m") ∧
    (indexRepositoryEmbeddings ⟨true, true⟩
        [⟨"o/r", none, some "", ['a'], 0, ['x'], [1], "m"⟩]
        "o/r" (some "repo") none (some "") 2000 1200 200 "m" false []
        (fun _ => []) none).1 =
      .ok ⟨"o/r", "repo", none, none, 0, 0, [], "m",
        some "No text files found to index.", false⟩ :=
  ⟨⟨⟨"o/r", none, some "", ['a'], 0, ['x'], [1], "m"⟩,
    List.mem_cons_self _ _, rfl, rfl, rfl⟩, rfl⟩

/-- C6 (amended): when a row exists for `(repoSlug, commitSha,
embeddingModel)`, the caller has not forced reindexing, *and* the commit
SHA is non-empty and the repo slug non-blank (otherwise the check is
bypassed), the run is a no-op: it returns the `skipped = true` summary with
`filesIndexed = 0`, `chunksIndexed = 0`, the store unchanged and no
effects. -/
theorem indexRepo_skips_when_up_to_date (env : IndexEnv) (store : Store)
    (repoSlug resolvedRel : String) (branch : Option String) (sha : String)
    (maxChunks chunkSize chunkOverlap : Nat) (model : String)
    (candidateFiles : List WalkedFile)
    (embedFn : List (List Char) → List (List ℚ)) (storeFailAt : Option Nat)
    (hkey : env.apiKeyPresent = true) (hcfg : env.storeConfigured = true)
    (hsize : chunkOverlap < chunkSize) (hsha : sha ≠ "")
    (hslug : jsTrim repoSlug.toList ≠ [])
    (hrow : ∃ r ∈ store, r.repoSlug = repoSlug ∧ r.commitSha = some sha ∧
      r.embeddingModel = model) :
    indexRepositoryEmbeddings env store repoSlug (some resolvedRel) branch
        (some sha) maxChunks chunkSize chunkOverlap model false candidateFiles
        embedFn storeFailAt =
      (.ok ⟨repoSlug, resolvedRel, branch, some sha, 0, 0, [], model,
        some "Embeddings already exist for this commit. Skipping reindex.",
        true⟩, store, []) := by
  have hupto : repoEmbeddingsUpToDate store repoSlug (some sha) model = true := by
    unfold repoEmbeddingsUpToDate
    have h1 : ¬ jsTrim repoSlug.data = [] := hslug
    rw [if_neg (by simp [strFalsy, hsha, h1])]
    rcases hrow with ⟨r, hrmem, h1, h2, h3⟩
    apply List.any_eq_true.mpr
    exact ⟨r, hrmem, by simp [h1, h2, h3]⟩
  have hfalsy : strFalsy (some sha) = false := by simp [strFalsy, hsha]
  unfold indexRepositoryEmbeddings
  rw [hkey, hcfg]
  have hnotle : ¬ chunkSize ≤ chunkOverlap := by omega
  simp [hnotle, hupto, hfalsy]

/-- Witness for C6 (amended) at a concrete input. -/
theorem indexRepo_skips_when_up_to_date_witness :
    indexRepositoryEmbeddings ⟨true, true⟩
        [⟨"o/r", none, some "abc", ['a'], 0, ['x'], [1], "m"⟩]
        "o/r" (some "repo") none (some "abc") 2000 1200 200 "m" false []
        (fun _ => []) none =
      (.ok ⟨"o/r", "repo", none, some "abc", 0, 0, [], "m",
        some "Embeddings already exist for this commit. Skipping reindex.",
        true⟩, [⟨"o/r", none, some "abc", ['a'], 0, ['x'], [1], "m"⟩], []) :=
  indexRepo_skips_when_up_to_date ⟨true, true⟩
    [⟨"o/r", none, some "abc", ['a'], 0, ['x'], [1], "m"⟩]
    "o/r" "repo" none "abc" 2000 1200 200 "m" [] (fun _ => []) none
    rfl rfl (by norm_num) (by decide) (by decide)
    ⟨⟨"o/r", none, some "abc", ['a'], 0, ['x'], [1], "m"⟩,
      List.mem_cons_self _ _, rfl, rfl, rfl⟩

/-! #### C3: embedding count mismatch aborts before any store write -/

theorem collectLoop_effects_reads (maxChunks chunkSize chunkOverlap : Nat) :
    ∀ (files : List WalkedFile) (records : List ChunkPayload) (fv : Nat)
      (skipped : List (List Char)) (effects : List Effect),
      (∀ e ∈ effects, ∃ p, e = Effect.fileRead p) →
      ∀ e ∈ (collectLoop maxChunks chunkSize chunkOverlap files records fv
        skipped effects).2.2.2, ∃ p, e = Effect.fileRead p := by
  intro files
  induction files with
  | nil =>
    intro records fv skipped effects hpre e he
    simp only [collectLoop] at he
    exact hpre e he
  | cons f rest ih =>
    intro records fv skipped effects hpre e he
    simp only [collectLoop] at he
    by_cases hmax : maxChunks ≤ records.length
    · rw [if_pos hmax] at he
      exact hpre e he
    · rw [if_neg hmax] at he
      by_cases hskip : shouldSkipForEmbedding f.relativePath = true
      · rw [if_pos hskip] at he
        exact ih _ _ _ _ hpre e he
      · rw [if_neg hskip] at he
        have happend : ∀ e' ∈ effects ++ [Effect.fileRead f.relativePath],
            ∃ p, e' = Effect.fileRead p := by
          intro e' he'
          rcases List.mem_append.mp he' with h | h
          · exact hpre e' h
          · simp at h
            exact ⟨f.relativePath, h⟩
        cases hc : f.content with
        | none =>
          rw [hc] at he
          dsimp only at he
          exact ih _ _ _ _ happend e he
        | some content =>
          rw [hc] at he
          dsimp only at he
          by_cases hlen : (chunkContent content chunkSize chunkOverlap).length = 0
          · rw [if_pos hlen] at he
            exact ih _ _ _ _ happend e he
          · rw [if_neg hlen] at he
            exact ih _ _ _ _ happend e he

theorem embedBatchLoop_effects (embedFn : List (List Char) → List (List ℚ)) :
    ∀ (n : Nat) (values : List (List Char)), values.length ≤ n →
      ∀ e ∈ (embedBatchLoop embedFn values).2, ∃ b, e = Effect.embedCall b := by
  intro n
  induction n with
  | zero =>
    intro values hlen e he
    have : values = [] := List.eq_nil_of_length_eq_zero (by omega)
    subst this
    simp [embedBatchLoop] at he
  | succ n ih =>
    intro values hlen e he
    match values with
    | [] => simp [embedBatchLoop] at he
    | v :: vs =>
      simp only [embedBatchLoop] at he
      rcases List.mem_cons.mp he with h | h
      · exact ⟨_, h⟩
      · refine ih _ ?_ e h
        simp only [List.length_drop, List.length_cons, embeddingBatchSize]
        simp only [List.length_cons] at hlen
        omega

/-- C3: once a run reaches the embedding phase (valid configuration,
`forceReindex`, candidate files, non-empty chunk records), a total
embedding count different from the chunk-record count fails the run with
"Embedding count mismatch. Aborting indexing." before any store write: the
store is unchanged and no `storeReplace` effect occurs.  When the counts
agree, the store call receives exactly the position-wise pairing of chunk
records and embeddings. -/
theorem indexRepo_embedding_count_mismatch (env : IndexEnv) (store : Store)
    (repoSlug resolvedRel : String) (branch commitSha : Option String)
    (maxChunks chunkSize chunkOverlap : Nat) (model : String)
    (candidateFiles : List WalkedFile)
    (embedFn : List (List Char) → List (List ℚ)) (storeFailAt : Option Nat)
    (hkey : env.apiKeyPresent = true) (hcfg : env.storeConfigured = true)
    (hsize : chunkOverlap < chunkSize) (hcand : candidateFiles ≠ [])
    (hrec : (collectLoop maxChunks chunkSize chunkOverlap candidateFiles
      [] 0 [] []).1 ≠ []) :
    ((embedBatchLoop embedFn (((collectLoop maxChunks chunkSize chunkOverlap
          candidateFiles [] 0 [] []).1).map fun r => r.content)).1.length ≠
        (collectLoop maxChunks chunkSize chunkOverlap candidateFiles
          [] 0 [] []).1.length →
      indexRepositoryEmbeddings env store repoSlug (some resolvedRel) branch
          commitSha maxChunks chunkSize chunkOverlap model true candidateFiles
          embedFn storeFailAt =
        (.error "Embedding count mismatch. Aborting indexing.", store,
          (collectLoop maxChunks chunkSize chunkOverlap candidateFiles
            [] 0 [] []).2.2.2 ++
          (embedBatchLoop embedFn (((collectLoop maxChunks chunkSize
            chunkOverlap candidateFiles [] 0 [] []).1).map
              fun r => r.content)).2) ∧
      Effect.storeReplace ∉
        (collectLoop maxChunks chunkSize chunkOverlap candidateFiles
          [] 0 [] []).2.2.2 ++
        (embedBatchLoop embedFn (((collectLoop maxChunks chunkSize
          chunkOverlap candidateFiles [] 0 [] []).1).map
            fun r => r.content)).2) ∧
    ((embedBatchLoop embedFn (((collectLoop maxChunks chunkSize chunkOverlap
          candidateFiles [] 0 [] []).1).map fun r => r.content)).1.length =
        (collectLoop maxChunks chunkSize chunkOverlap candidateFiles
          [] 0 [] []).1.length →
      (indexRepositoryEmbeddings env store repoSlug (some resolvedRel) branch
          commitSha maxChunks chunkSize chunkOverlap model true candidateFiles
          embedFn storeFailAt).2.1 =
        (replaceRepoEmbeddings store repoSlug branch commitSha model
          (((collectLoop maxChunks chunkSize chunkOverlap candidateFiles
            [] 0 [] []).1.zip
            (embedBatchLoop embedFn (((collectLoop maxChunks chunkSize
              chunkOverlap candidateFiles [] 0 [] []).1).map
                fun r => r.content)).1).map mkChunkRecord) storeFailAt).2 ∧
      ∀ (i : Nat)
        (h1 : i < (((collectLoop maxChunks chunkSize chunkOverlap
          candidateFiles [] 0 [] []).1.zip
          (embedBatchLoop embedFn (((collectLoop maxChunks chunkSize
            chunkOverlap candidateFiles [] 0 [] []).1).map
              fun r => r.content)).1).map mkChunkRecord).length)
        (h2 : i < (collectLoop maxChunks chunkSize chunkOverlap candidateFiles
          [] 0 [] []).1.length)
        (h3 : i < (embedBatchLoop embedFn (((collectLoop maxChunks chunkSize
          chunkOverlap candidateFiles [] 0 [] []).1).map
            fun r => r.content)).1.length),
        (((collectLoop maxChunks chunkSize chunkOverlap candidateFiles
          [] 0 [] []).1.zip
          (embedBatchLoop embedFn (((collectLoop maxChunks chunkSize
            chunkOverlap candidateFiles [] 0 [] []).1).map
              fun r => r.content)).1).map mkChunkRecord)[i] =
          mkChunkRecord
            ((collectLoop maxChunks chunkSize chunkOverlap candidateFiles
              [] 0 [] []).1[i],
              (embedBatchLoop embedFn (((collectLoop maxChunks chunkSize
                chunkOverlap candidateFiles [] 0 [] []).1).map
                  fun r => r.content)).1[i])) := by
  have hnotle : ¬ chunkSize ≤ chunkOverlap := by omega
  have hcand0 : ¬ candidateFiles.length = 0 := by
    intro habs
    exact hcand (List.eq_nil_of_length_eq_zero habs)
  have hrec0 : ¬ (collectLoop maxChunks chunkSize chunkOverlap candidateFiles
      [] 0 [] []).1.length = 0 := by
    intro habs
    exact hrec (List.eq_nil_of_length_eq_zero habs)
  have hnoreplace : Effect.storeReplace ∉
      (collectLoop maxChunks chunkSize chunkOverlap candidateFiles
        [] 0 [] []).2.2.2 ++
      (embedBatchLoop embedFn (((collectLoop maxChunks chunkSize chunkOverlap
        candidateFiles [] 0 [] []).1).map fun r => r.content)).2 := by
    intro habs
    rcases List.mem_append.mp habs with h | h
    · rcases collectLoop_effects_reads maxChunks chunkSize chunkOverlap
        candidateFiles [] 0 [] [] (by simp) _ h with ⟨p, hp⟩
      cases hp
    · rcases embedBatchLoop_effects embedFn _ _ le_rfl _ h with ⟨b, hb⟩
      cases hb
  constructor
  · intro hmis
    refine ⟨?_, hnoreplace⟩
    unfold indexRepositoryEmbeddings
    simp only [hkey, hcfg, Bool.not_true, Bool.false_eq_true, if_false,
      Bool.false_and, if_neg hnotle]
    rw [if_neg hcand0]
    rw [if_neg hrec0, if_pos hmis]
  · intro heq
    constructor
    · unfold indexRepositoryEmbeddings
      simp only [hkey, hcfg, Bool.not_true, Bool.false_eq_true, if_false,
        Bool.false_and, if_neg hnotle]
      rw [if_neg hcand0]
      rw [if_neg hrec0, if_neg (by omega)]
      cases hrep : (replaceRepoEmbeddings store repoSlug branch commitSha model
          (((collectLoop maxChunks chunkSize chunkOverlap candidateFiles
            [] 0 [] []).1.zip
            (embedBatchLoop embedFn (((collectLoop maxChunks chunkSize
              chunkOverlap candidateFiles [] 0 [] []).1).map
                fun r => r.content)).1).map mkChunkRecord) storeFailAt).1 with
      | error e => rfl
      | ok v => rfl
    · intro i h1 h2 h3
      simp [List.getElem_map, List.getElem_zip]

/-- Witness for C3: one candidate file, an embedding service returning no
vectors — the count mismatch aborts the run with the store untouched. -/
theorem indexRepo_embedding_count_mismatch_witness :
    indexRepositoryEmbeddings ⟨true, true⟩ [] "o/r" (some "repo") none none
        2000 1200 200 "m" true [⟨"a.ts".toList, some "hello".toList⟩]
        (fun _ => []) none =
      (.error "Embedding count mismatch. Aborting indexing.", [],
        (collectLoop 2000 1200 200 [⟨"a.ts".toList, some "hello".toList⟩]
          [] 0 [] []).2.2.2 ++
        (embedBatchLoop (fun _ => []) (((collectLoop 2000 1200 200
          [⟨"a.ts".toList, some "hello".toList⟩] [] 0 [] []).1).map
            fun r => r.content)).2) ∧
    Effect.storeReplace ∉
      (collectLoop 2000 1200 200 [⟨"a.ts".toList, some "hello".toList⟩]
        [] 0 [] []).2.2.2 ++
      (embedBatchLoop (fun _ => []) (((collectLoop 2000 1200 200
        [⟨"a.ts".toList, some "hello".toList⟩] [] 0 [] []).1).map
          fun r => r.content)).2 := by
  refine (indexRepo_embedding_count_mismatch ⟨true, true⟩ [] "o/r" "repo"
    none none 2000 1200 200 "m" [⟨"a.ts".toList, some "hello".toList⟩]
    (fun _ => []) none rfl rfl (by norm_num) (by decide) ?_).1 ?_
  · simp +decide [collectLoop, chunkContent, chunkLoop, shouldSkipForEmbedding,
      basenameOf, extnameOf, lowerStr, jsToLower, embeddingSkipBasenames,
      embeddingSkipExtensions, jsTrim, isJsWhitespace, normalizeNewlines]
  · simp +decide [collectLoop, chunkContent, chunkLoop, shouldSkipForEmbedding,
      basenameOf, extnameOf, lowerStr, jsToLower, embeddingSkipBasenames,
      embeddingSkipExtensions, jsTrim, isJsWhitespace, normalizeNewlines,
      embedBatchLoop, embeddingBatchSize]

end CodeAgent
